import Mathlib

/-!
# goExtractor: a shallow embedding of `main.go`

Go strings are byte sequences, so a string is modelled as a list of byte values.
The standard-library routines that `main.go` calls (`strings.HasPrefix`,
`strings.TrimSpace`, `filepath.Match`, `filepath.Ext`, `bufio.Scanner`,
`filepath.Walk`) are transcribed next to the functions of `main.go` that use them.
-/

namespace GoExtractor

/-- A Go string: its bytes, in order. -/
abbrev Str := List Nat

/-- The bytes of an ASCII literal. -/
def lit (s : String) : Str := s.toList.map Char.toNat

/-! ## package strings -/

/-- Transcription of `strings.HasPrefix(s, prefix)`. -/
def hasPrefix : Str → Str → Bool
  | _, [] => true
  | [], _ :: _ => false
  | a :: s, b :: p => a == b && hasPrefix s p

/-- Transcription of `strings.HasSuffix(s, suffix)`. -/
def hasSuffix (s suffix : Str) : Bool :=
  hasPrefix s.reverse suffix.reverse

/-- Transcription of `strings.TrimSuffix(s, suffix)`. -/
def trimSuffix (s suffix : Str) : Str :=
  if hasSuffix s suffix then s.take (s.length - suffix.length) else s

/-- Transcription of `strings.Contains(s, "/")`. -/
def containsSep (s : Str) : Bool := s.any (fun b => b == 47)

/-! ## package unicode/utf8 -/

/-- The replacement rune `utf8.RuneError`. -/
def RuneError : Nat := 0xFFFD

/-- Whether `b` is a UTF-8 continuation byte (`0x80 ..= 0xBF`). -/
def isCont (b : Nat) : Bool := 0x80 ≤ b && b ≤ 0xBF

/-- Transcription of `utf8.DecodeRuneInString`: the first rune of `s` and its width in
bytes; `(RuneError, 0)` for the empty string and `(RuneError, 1)` for an invalid
encoding. -/
def decodeRune : Str → Nat × Nat
  | [] => (RuneError, 0)
  | b0 :: rest =>
    if b0 < 0x80 then (b0, 1)
    else if 0xC2 ≤ b0 && b0 ≤ 0xDF then
      match rest with
      | b1 :: _ =>
        if isCont b1 then ((b0 % 32) * 64 + b1 % 64, 2) else (RuneError, 1)
      | [] => (RuneError, 1)
    else if 0xE0 ≤ b0 && b0 ≤ 0xEF then
      match rest with
      | b1 :: b2 :: _ =>
        let lo := if b0 == 0xE0 then 0xA0 else 0x80
        let hi := if b0 == 0xED then 0x9F else 0xBF
        if lo ≤ b1 && b1 ≤ hi && isCont b2 then
          ((b0 % 16) * 4096 + (b1 % 64) * 64 + b2 % 64, 3)
        else (RuneError, 1)
      | _ => (RuneError, 1)
    else if 0xF0 ≤ b0 && b0 ≤ 0xF4 then
      match rest with
      | b1 :: b2 :: b3 :: _ =>
        let lo := if b0 == 0xF0 then 0x90 else 0x80
        let hi := if b0 == 0xF4 then 0x8F else 0xBF
        if lo ≤ b1 && b1 ≤ hi && isCont b2 && isCont b3 then
          ((b0 % 8) * 262144 + (b1 % 64) * 4096 + (b2 % 64) * 64 + b3 % 64, 4)
        else (RuneError, 1)
      | _ => (RuneError, 1)
    else (RuneError, 1)

/-- Transcription of `unicode.IsSpace`. -/
def isSpace (r : Nat) : Bool :=
  (9 ≤ r && r ≤ 13) || r == 0x20 || r == 0x85 || r == 0xA0 || r == 0x1680 ||
  (0x2000 ≤ r && r ≤ 0x200A) || r == 0x2028 || r == 0x2029 || r == 0x202F ||
  r == 0x205F || r == 0x3000

/-- The test `strings.TrimSpace(line) != ""` negated: trimming leaves nothing exactly
when decoding `line` from the left meets only white-space runes. The first argument
bounds the number of runes; the length of the string is always enough. -/
def allSpace : Nat → Str → Bool
  | _, [] => true
  | 0, _ :: _ => false
  | fuel + 1, b :: rest =>
    let (r, n) := decodeRune (b :: rest)
    isSpace r && allSpace fuel ((b :: rest).drop n)

/-- Whether `strings.TrimSpace(line) == ""`. -/
def trimsToEmpty (line : Str) : Bool := allSpace line.length line

/-! ## package path/filepath: Ext and Match (Unix) -/

/-- Transcription of `filepath.Ext`: the suffix starting at the last dot of the final
path element, or the empty string. The scan runs from the end of the path and
stops at a separator. -/
def extRev : Str → Str → Str
  | [], _ => []
  | b :: rest, acc =>
    if b == 47 then []
    else if b == 46 then b :: acc
    else extRev rest (b :: acc)

/-- The extension `filepath.Ext(path)`. -/
def Ext (path : Str) : Str := extRev path.reverse []

/-- The only error of `filepath.Match`. -/
inductive PatternError where
  | ErrBadPattern
  deriving DecidableEq, Repr

deriving instance DecidableEq for Except

/-- Transcription of `scanChunk`, the scanning loop: the index after the chunk that starts
`pattern`. The chunk ends before the first `*` outside a character class. -/
def scanEnd : Str → Bool → Nat
  | [], _ => 0
  | b :: rest, inrange =>
    if b == 92 then
      match rest with
      | _ :: rest2 => 2 + scanEnd rest2 inrange
      | [] => 1
    else if b == 91 then 1 + scanEnd rest true
    else if b == 93 then 1 + scanEnd rest false
    else if b == 42 then (if inrange then 1 + scanEnd rest inrange else 0)
    else 1 + scanEnd rest inrange

/-- Transcription of `scanChunk`: leading stars are dropped (`star` records if there were
any), then the pattern is cut at the end of its first chunk. -/
def scanChunk (pattern : Str) : Bool × Str × Str :=
  let p := pattern.dropWhile (fun b => b == 42)
  let star := hasPrefix pattern [42]
  let i := scanEnd p false
  (star, p.take i, p.drop i)

/-- Transcription of `getEsc`: one possibly escaped rune of a character class and the
rest of the chunk. -/
def getEsc (chunk : Str) : Except PatternError (Nat × Str) :=
  match chunk with
  | [] => .error .ErrBadPattern
  | c :: rest =>
    if c == 45 || c == 93 then .error .ErrBadPattern
    else
      let chunk1 := if c == 92 then rest else c :: rest
      if chunk1.isEmpty then .error .ErrBadPattern
      else
        let (r, n) := decodeRune chunk1
        let nchunk := chunk1.drop n
        if (r == RuneError && n == 1) || nchunk.isEmpty then .error .ErrBadPattern
        else .ok (r, nchunk)

/-- Transcription of the range loop inside `matchChunk`: parses the ranges of a character
class up to the closing bracket; returns the rest of the chunk and whether rune `r`
lies in one of the ranges. The first argument bounds the number of iterations. -/
def classLoop : Nat → Str → Nat → Bool → Bool → Except PatternError (Str × Bool)
  | 0, _, _, _, _ => .error .ErrBadPattern
  | fuel + 1, chunk, r, mtch, started =>
    if started && hasPrefix chunk [93] then .ok (chunk.drop 1, mtch)
    else
      match getEsc chunk with
      | .error e => .error e
      | .ok (lo, chunk1) =>
        if hasPrefix chunk1 [45] then
          match getEsc (chunk1.drop 1) with
          | .error e => .error e
          | .ok (hi, chunk2) =>
            classLoop fuel chunk2 r (mtch || (lo ≤ r && r ≤ hi)) true
        else classLoop fuel chunk1 r (mtch || (lo ≤ r && r ≤ lo)) true

/-- Transcription of the character-class case of `matchChunk`, after the opening bracket:
an optional `^` negates the class, then the ranges are parsed. Returns the rest of
the chunk and whether rune `r` misses the class (`match == negated`). Every
iteration of the range loop consumes a byte of the chunk, so its length bounds the
loop. -/
def matchClass (chunk : Str) (r : Nat) : Except PatternError (Str × Bool) :=
  let negated := hasPrefix chunk [94]
  let chunk1 := if negated then chunk.drop 1 else chunk
  match classLoop (chunk1.length + 1) chunk1 r false false with
  | .error e => .error e
  | .ok (chunk2, mtch) => .ok (chunk2, mtch == negated)

/-- Transcription of the main loop of `matchChunk`. `failed` records that the match has
failed; the loop then only checks that the chunk is well formed. The result is
`none` for a failed match and `some rest` for a match leaving `rest` of `s`. The
first argument bounds the number of iterations. -/
def matchChunkLoop : Nat → Str → Str → Bool → Except PatternError (Option Str)
  | _, [], s, failed => .ok (if failed then none else some s)
  | 0, _ :: _, _, _ => .error .ErrBadPattern
  | fuel + 1, c :: chunk, s, failed0 =>
    let failed := failed0 || s.isEmpty
    if c == 91 then
      let rn := if failed then (0, 0) else decodeRune s
      match matchClass chunk rn.1 with
      | .error e => .error e
      | .ok (chunk2, miss) => matchChunkLoop fuel chunk2 (s.drop rn.2) (failed || miss)
    else if c == 63 then
      if failed then matchChunkLoop fuel chunk s failed
      else matchChunkLoop fuel chunk (s.drop (decodeRune s).2) (hasPrefix s [47])
    else if c == 92 then
      match chunk with
      | [] => .error .ErrBadPattern
      | c1 :: chunk1 =>
        if failed then matchChunkLoop fuel chunk1 s failed
        else matchChunkLoop fuel chunk1 (s.drop 1) (!hasPrefix s [c1])
    else
      if failed then matchChunkLoop fuel chunk s failed
      else matchChunkLoop fuel chunk (s.drop 1) (!hasPrefix s [c])

/-- Transcription of `matchChunk(chunk, s)`. -/
def matchChunk (chunk s : Str) : Except PatternError (Option Str) :=
  matchChunkLoop chunk.length chunk s false

/-- Transcription of the loop in `Match` that tries a starred chunk after skipping `i + 1`
bytes of `name`, for `i = 0, 1, ...` while byte `i` is not a separator. `last` says
that the chunk is the last one, which must exhaust the name. The result is
`some t` when the chunk matched leaving `t` and `none` when no position worked. -/
def starLoop (chunk : Str) (last : Bool) : Str → Except PatternError (Option Str)
  | [] => .ok none
  | b :: rest =>
    if b == 47 then .ok none
    else
      match matchChunk chunk rest with
      | .error e => .error e
      | .ok (some t) =>
        if last && !t.isEmpty then starLoop chunk last rest else .ok (some t)
      | .ok none => starLoop chunk last rest

/-- Transcription of the loop of `filepath.Match` (package path/filepath). When a chunk
does not match and no star lets it move, the function returns `false, nil` without
looking at the rest of the pattern. The first argument bounds the number of chunks;
the length of the pattern is always enough. -/
def matchLoop : Nat → Str → Str → Except PatternError Bool
  | _, [], name => .ok name.isEmpty
  | 0, _ :: _, _ => .ok false
  | fuel + 1, b :: pattern0, name =>
    let (star, chunk, pattern) := scanChunk (b :: pattern0)
    if star && chunk.isEmpty then .ok (!containsSep name)
    else
      match matchChunk chunk name with
      | .error e => .error e
      | .ok (some t) =>
        if t.isEmpty || !pattern.isEmpty then matchLoop fuel pattern t
        else if star then
          match starLoop chunk pattern.isEmpty name with
          | .error e => .error e
          | .ok (some t1) => matchLoop fuel pattern t1
          | .ok none => .ok false
        else .ok false
      | .ok none =>
        if star then
          match starLoop chunk pattern.isEmpty name with
          | .error e => .error e
          | .ok (some t1) => matchLoop fuel pattern t1
          | .ok none => .ok false
        else .ok false

/-- Transcription of `filepath.Match(pattern, name)`; each chunk takes at least one byte
of the pattern, so its length bounds the loop. Every return of an error in the Go
source returns the matched flag `false` with it. -/
def Match (pattern name : Str) : Except PatternError Bool :=
  matchLoop pattern.length pattern name

/-! ## matchesGitignore -/

/-- The flag `matched` of `matched, _ := filepath.Match(pattern, path)`: the error is
discarded, and with an error the flag is false. -/
def globMatched (pattern path : Str) : Bool :=
  match Match pattern path with
  | .ok m => m
  | .error _ => false

/-- Transcription of `matchesGitignore` (main.go:146-158). -/
def matchesGitignore (path : Str) : List Str → Bool
  | [] => false
  | pattern :: patterns =>
    if globMatched pattern path then true
    else if hasSuffix pattern [47] && hasPrefix path (trimSuffix pattern [47]) then true
    else matchesGitignore path patterns

/-! ## readGitignore -/

/-- The constant `bufio.MaxScanTokenSize`, the largest buffer a default `bufio.Scanner`
allocates. -/
def maxScanTokenSize : Nat := 65536

/-- Transcription of `dropCR` of package bufio: one trailing carriage return is dropped. -/
def dropCR (data : Str) : Str :=
  if hasSuffix data [13] then data.dropLast else data

/-- What one call of `scanner.Scan()` does with the unread input. -/
inductive ScanStep where
  | token (text rest : Str)
  | done
  | tooLong
  deriving DecidableEq, Repr

/-- One call of `scanner.Scan()` with the split function `bufio.ScanLines` on the unread
input `data`: at end of input the scan is done; a line runs up to the next newline
or to the end of input; a line together with its newline must fit the buffer of
`maxScanTokenSize` bytes, otherwise `Scan` stops with `ErrTooLong`. -/
def scanStep (data : Str) : ScanStep :=
  if data.isEmpty then .done
  else
    let line := data.takeWhile (fun b => b != 10)
    if maxScanTokenSize ≤ line.length then .tooLong
    else .token (dropCR line) (data.drop (line.length + 1))

/-- Transcription of the loop over `scanner.Scan()` in `readGitignore` (main.go:130-136):
a line is kept when it is not blank and does not begin with `#`. The first argument
bounds the number of iterations. -/
def readLoop : Nat → Str → List Str → List Str
  | 0, _, patterns => patterns
  | fuel + 1, data, patterns =>
    match scanStep data with
    | .done => patterns
    | .tooLong => patterns
    | .token line rest =>
      if !trimsToEmpty line && !hasPrefix line [35] then
        readLoop fuel rest (patterns ++ [line])
      else readLoop fuel rest patterns

/-- Transcription of `readGitignore` (main.go:120-143). The argument is the content of
the ignore file, `none` when `os.Open` fails. Each iteration consumes at least one
byte, so the length of the content bounds the number of iterations. -/
def readGitignore : Option Str → List Str
  | none => []
  | some content => readLoop content.length content []

/-! ## The directory tree and the walk -/

/-- A path below the target directory: its components, outermost first. The empty path
is the target directory itself. -/
abbrev Path := List Str

/-- A directory tree as `filepath.Walk` sees it. The entries of a directory are listed
in the order `Walk` visits them, which is the lexical order of their names. `broken`
is an entry for which `os.Lstat` fails or a directory whose entries cannot be
listed; the data of a file is `none` when `os.ReadFile` fails on it. -/
inductive Node where
  | file (name : Str) (data : Option Str)
  | dir (name : Str) (entries : List Node)
  | broken (name : Str)

/-- The base name `info.Name()` of an entry. -/
def Node.name : Node → Str
  | .file n _ => n
  | .dir n _ => n
  | .broken n => n

/-- The result of `filepath.Rel(*targetDir, path)` for a path of the walk: `.` for the
target directory itself, otherwise the components joined by `/`. -/
def relString : Path → Str
  | [] => [46]
  | c :: cs => List.intercalate [47] (c :: cs)

/-- Transcription of `strings.Split(s, ",")`. -/
def splitComma : Str → List Str
  | [] => [[]]
  | b :: rest =>
    if b == 44 then [] :: splitComma rest
    else
      match splitComma rest with
      | [] => [[b]]
      | e :: es => (b :: e) :: es

/-- The keys of `extMap` (main.go:36-43) for the value of the `-ext` flag. -/
def extMapOf (extensions : Str) : List Str :=
  (if extensions.isEmpty then [] else splitComma extensions).map (fun ext => 46 :: ext)

/-- The non-nil errors that the walk function and `walk` return. -/
inductive WalkErr where
  | SkipDir
  | failure
  deriving DecidableEq, Repr

/-- Transcription of the walk function of `main` (main.go:48-88) for an entry without an
error: `rel` is the path of the entry below the target directory, `name` is
`info.Name()`. `filepath.Ext(path)` reads only the last element of the path, which
is `name`. Returns the extended list `files` and the returned error. -/
def visit (patterns extMap : List Str) (files : List Path) (rel : Path) (name : Str)
    (isDir : Bool) : List Path × Option WalkErr :=
  if hasPrefix name [46] then
    if isDir && name == lit ".git" then (files, some .SkipDir) else (files, none)
  else if matchesGitignore (relString rel) patterns then
    if isDir then (files, some .SkipDir) else (files, none)
  else if !isDir then
    if !extMap.isEmpty then
      if extMap.contains (Ext name) then (files ++ [rel], none) else (files, none)
    else
      if Ext name != lit ".txt" then (files ++ [rel], none) else (files, none)
  else (files, none)

mutual
/-- Transcription of `walk` of package filepath with the walk function of `main`. For a
broken entry the walk function receives the error and returns it. -/
def walk (patterns extMap : List Str) : Path → Node → List Path → List Path × Option WalkErr
  | rel, .file name _, files => visit patterns extMap files rel name false
  | _, .broken _, files => (files, some .failure)
  | rel, .dir name entries, files =>
    match visit patterns extMap files rel name true with
    | (files1, none) => walkEntries patterns extMap rel entries files1
    | (files1, some e) => (files1, some e)
/-- The loop of `walk` over the entries of a directory at path `rel`. -/
def walkEntries (patterns extMap : List Str) : Path → List Node → List Path →
    List Path × Option WalkErr
  | _, [], files => (files, none)
  | rel, n :: ns, files =>
    match walk patterns extMap (rel ++ [n.name]) n files with
    | (files1, none) => walkEntries patterns extMap rel ns files1
    | (files1, some .SkipDir) =>
      match n with
      | .dir _ _ => walkEntries patterns extMap rel ns files1
      | _ => (files1, some .SkipDir)
    | (files1, some .failure) => (files1, some .failure)
end

/-- Transcription of `filepath.Walk(*targetDir, fn)` on the tree `root`: `SkipDir` from
the root is not an error. Returns the list `files` and whether the walk failed. -/
def Walk (patterns extMap : List Str) (root : Node) : List Path × Bool :=
  match walk patterns extMap [] root [] with
  | (files, some .failure) => (files, true)
  | (files, _) => (files, false)

/-! ## Reading the selected files, the concatenation and the final write -/

/-- The entry of the tree at a path below its root; among entries of one name the first
is taken. -/
def lookup : Path → Node → Option Node
  | [], n => some n
  | c :: cs, .dir _ entries => (entries.find? (fun n => n.name == c)).bind (lookup cs)
  | _ :: _, _ => none

/-- The result of `os.ReadFile` on the path `p` of the tree: the bytes of a readable
regular file, `none` for an error. -/
def readFile (root : Node) (p : Path) : Option Str :=
  match lookup p root with
  | some (.file _ (some data)) => some data
  | _ => none

/-- Transcription of the concatenation loop of `main` (main.go:95-108). `read` is
`os.ReadFile`; a file that cannot be read is skipped with `continue`. Each other
file appends `fmt.Sprintf("%s\n%s\n\n", relativePath, string(data))`. -/
def concatLoop (read : Path → Option Str) : List Path → Str → Str
  | [], output => output
  | file :: files, output =>
    match read file with
    | none => concatLoop read files output
    | some data =>
      concatLoop read files (output ++ (relString file ++ [10] ++ data ++ [10, 10]))

/-- Go's order `<` on strings: lexical order of the bytes. -/
def strLt : Str → Str → Bool
  | [], [] => false
  | [], _ :: _ => true
  | _ :: _, [] => false
  | a :: s, b :: t => a < b || (a == b && strLt s t)

/-- A new entry put at its place in the lexical order of the names. -/
def insertEntry (n : Node) : List Node → List Node
  | [] => [n]
  | m :: ms => if strLt n.name m.name then n :: m :: ms else m :: insertEntry n ms

/-- The first entry named `c` replaced by `n`. -/
def replaceEntry (c : Str) (n : Node) : List Node → List Node
  | [] => []
  | m :: ms => if m.name == c then n :: ms else m :: replaceEntry c n ms

/-- The effect of `os.WriteFile(path, data, 0644)` on the tree, for a path given by its
components below the root: an existing readable regular file is rewritten, a file
missing from an existing directory is created; every other case is an error
(`none`). -/
def writeFile : Path → Str → Node → Option Node
  | [], data, .file name (some _) => some (.file name (some data))
  | [], _, _ => none
  | c :: cs, data, .dir name entries =>
    match entries.find? (fun n => n.name == c) with
    | some child =>
      (writeFile cs data child).map (fun child1 => .dir name (replaceEntry c child1 entries))
    | none =>
      if cs.isEmpty then some (.dir name (insertEntry (.file c (some data)) entries))
      else none
  | _ :: _, _, _ => none

/-- Where the resolved `-output` path lies: inside the target tree at a path below the
target directory, or outside of it, where the write succeeds or not. -/
inductive OutputLoc where
  | inTree (p : Path)
  | outside (writable : Bool)

/-- The flags of a run: the value of `-ext` and the place of the output file. The target
directory is the root of the tree the run is given; the name of the root is the
base name of the target path as passed. -/
structure Config where
  extensions : Str
  output : OutputLoc

/-- The outcome of a run: the exit status, the bytes written to the output file if it
was written, and the tree afterwards. -/
structure Outcome where
  status : Nat
  written : Option Str
  root : Node

/-- The content that `readGitignore` gets from `os.Open` on `.gitignore` in the target
directory: `none` when the file cannot be opened; a directory of that name opens
but cannot be read, which leaves no patterns either. -/
def ignoreContent (root : Node) : Option Str :=
  readFile root [lit ".gitignore"]

/-- The final `os.WriteFile` of `main` (main.go:110): the tree after a successful write,
`none` for an error. -/
def writeOutput : OutputLoc → Str → Node → Option Node
  | .inTree p, data, root => writeFile p data root
  | .outside writable, _, root => if writable then some root else none

/-- Transcription of `main` (main.go:12-117) from the call of `readGitignore` on: a
failed walk and a failed write end the run with status 1. -/
def main (cfg : Config) (root : Node) : Outcome :=
  let gitignorePatterns := readGitignore (ignoreContent root)
  match Walk gitignorePatterns (extMapOf cfg.extensions) root with
  | (_, true) => ⟨1, none, root⟩
  | (files, false) =>
    let output := concatLoop (readFile root) files []
    match writeOutput cfg.output output root with
    | none => ⟨1, none, root⟩
    | some root1 => ⟨0, some output, root1⟩

/-! ## Vocabulary of the specification -/

/-- The base name of the entry at path `p` when the root is named `rootName`. -/
def entryName (rootName : Str) (p : Path) : Str := (p.getLast?).getD rootName

/-- The directories above the entry at path `p`, from the target directory (the empty
path) down to the parent of the entry. -/
def ancestors (p : Path) : List Path := (List.range p.length).map (fun i => p.take i)

mutual
/-- The paths of the regular files of a tree whose root lies at path `rel`, in the order
of a full traversal. -/
def allFiles : Path → Node → List Path
  | rel, .file _ _ => [rel]
  | _, .broken _ => []
  | rel, .dir _ entries => allFilesIn rel entries
/-- The regular files below the entries of a directory at path `rel`. -/
def allFilesIn : Path → List Node → List Path
  | _, [] => []
  | rel, n :: ns => allFiles (rel ++ [n.name]) n ++ allFilesIn rel ns
end

/-- The extension filter of the specification: membership in the configured set when the
set is not empty, any extension but `.txt` when it is empty. -/
def extPasses (extMap : List Str) (name : Str) : Bool :=
  if extMap.isEmpty then Ext name != lit ".txt" else extMap.contains (Ext name)

/-- The three conditions of the specification on the file itself: not hidden, matched by no
exclusion pattern, extension passes. -/
def fileQualifies (patterns extMap : List Str) (rootName : Str) (p : Path) : Bool :=
  !hasPrefix (entryName rootName p) [46] && !matchesGitignore (relString p) patterns &&
    extPasses extMap (entryName rootName p)

/-- Whether the walk prunes the directory at path `a`: it is named `.git`, or its name
does not start with a dot and its relative path matches an exclusion pattern. -/
def prunedDir (patterns : List Str) (rootName : Str) (a : Path) : Bool :=
  entryName rootName a == lit ".git" ||
    (!hasPrefix (entryName rootName a) [46] && matchesGitignore (relString a) patterns)

/-- The file at path `p` qualifies and none of the directories above it from depth `k`
on is pruned. -/
def keepFrom (patterns extMap : List Str) (rootName : Str) (k : Nat) (p : Path) : Bool :=
  fileQualifies patterns extMap rootName p &&
    (List.range' k (p.length - k)).all (fun i => !prunedDir patterns rootName (p.take i))

/-- One record of the output: relative path, line break, content, two line breaks. -/
def record (p : Path) (data : Str) : Str := relString p ++ [10] ++ data ++ [10, 10]

/-- The prefix rule of `matchesGitignore` for one pattern: the pattern ends in `/` and the
path begins with the pattern without that `/`. -/
def prefixRule (pattern path : Str) : Bool :=
  hasSuffix pattern [47] && hasPrefix path (trimSuffix pattern [47])

/-- Whether some chunk of the pattern is malformed, that is, `matchChunk` returns
`ErrBadPattern` for it. The first argument bounds the number of chunks. -/
def hasBadChunk : Nat → Str → Bool
  | _, [] => false
  | 0, _ :: _ => false
  | fuel + 1, b :: pattern =>
    match matchChunk (scanChunk (b :: pattern)).2.1 [] with
    | .error _ => true
    | .ok _ => hasBadChunk fuel (scanChunk (b :: pattern)).2.2

/-- The patterns kept from a list of lines: the carriage return of the line end is
dropped, blank lines and lines beginning with `#` are left out. -/
def patternsOf (lines : List Str) : List Str :=
  (lines.map dropCR).filter (fun line => !trimsToEmpty line && !hasPrefix line [35])

/-- The lines of a text that come before its first line of `maxScanTokenSize` bytes or
more; all lines when there is no such line. -/
def linesBeforeLong (lines : List Str) : List Str :=
  lines.takeWhile (fun l => decide (l.length < maxScanTokenSize))

/-- The lines of a text: the runs of bytes between newlines; what follows the last
newline is a line only if it is not empty. -/
def rawLines : Str → List Str
  | [] => []
  | b :: rest =>
    if b == 10 then [] :: rawLines rest
    else
      match rawLines rest with
      | [] => [[b]]
      | l :: ls => (b :: l) :: ls

/-- The patterns the specification promises for an ignore file: its lines, without the
carriage return of the line end, that are not blank and do not begin with `#`. -/
def claimedPatterns (content : Str) : List Str :=
  ((rawLines content).map dropCR).filter
    (fun line => !trimsToEmpty line && !hasPrefix line [35])

/-! ## Example trees -/

/-- A project with a `.git` directory, a hidden file, a hidden directory, a build
directory and three ordinary files. -/
def sampleTree : Node :=
  .dir (lit "proj")
    [.dir (lit ".config") [.file (lit "tool.go") (some (lit "package tool"))],
     .dir (lit ".git") [.file (lit "config") (some (lit "[core]"))],
     .file (lit ".secret") (some (lit "key")),
     .file (lit "a.go") (some (lit "package a")),
     .dir (lit "build") [.file (lit "out.o") (some (lit "obj"))],
     .file (lit "notes.md") (some (lit "todo")),
     .file (lit "notes.txt") (some (lit "text"))]

/-- A project in which the file `b.go` cannot be read. -/
def lockedTree : Node :=
  .dir (lit "proj")
    [.file (lit "a.go") (some (lit "package a")),
     .file (lit "b.go") none,
     .file (lit "c.go") (some (lit "package c"))]

/-- An ignore file whose first line has 65536 bytes `a` and whose second line is `b`. -/
def longLineContent : Str := List.replicate 65536 97 ++ 10 :: [98]

/-- A target directory holding the single file `a.md`. -/
def notesTree : Node :=
  .dir (lit "proj") [.file (lit "a.md") (some (lit "x"))]

/-- A run without extension filter whose output file is `out.md` in the target
directory. -/
def notesConfig : Config := ⟨[], .inTree [lit "out.md"]⟩

/-! # Theorems -/

/-! ## Facts about the string helpers and the pattern matcher -/

theorem hasPrefix_iff (s p : Str) : hasPrefix s p = true ↔ p <+: s := by
  induction p generalizing s with
  | nil => simp [hasPrefix]
  | cons b p ih =>
    cases s with
    | nil => simp [hasPrefix]
    | cons a s =>
      simp only [hasPrefix, Bool.and_eq_true, beq_iff_eq, ih, List.cons_prefix_cons]
      exact and_congr_left (fun _ => eq_comm)

theorem hasPrefix_append (s p t : Str) (h : hasPrefix s p = true) :
    hasPrefix (s ++ t) p = true := by
  rw [hasPrefix_iff] at *
  exact h.trans (List.prefix_append s t)

theorem matchesGitignore_eq_any (path : Str) (patterns : List Str) :
    matchesGitignore path patterns =
      patterns.any (fun p => globMatched p path || prefixRule p path) := by
  induction patterns with
  | nil => rfl
  | cons p ps ih =>
    simp only [matchesGitignore, List.any_cons, ih, prefixRule]
    cases globMatched p path <;>
      cases (hasSuffix p [47] && hasPrefix path (trimSuffix p [47])) <;> simp

theorem matchesGitignore_of_mem (path p : Str) (patterns : List Str) (hp : p ∈ patterns)
    (h : matchesGitignore path [p] = true) : matchesGitignore path patterns = true := by
  rw [matchesGitignore_eq_any] at *
  simp only [List.any_cons, List.any_nil, Bool.or_false] at h
  exact List.any_eq_true.mpr ⟨p, hp, h⟩

/-! ## The walk only appends to the list of files -/

theorem visit_append (P E : List Str) (fs : List Path) (rel : Path) (name : Str) (d : Bool) :
    visit P E fs rel name d =
      (fs ++ (visit P E [] rel name d).1, (visit P E [] rel name d).2) := by
  unfold visit
  split_ifs <;> simp

mutual
theorem walk_append (P E : List Str) : ∀ (n : Node) (rel : Path) (fs : List Path),
    walk P E rel n fs = (fs ++ (walk P E rel n []).1, (walk P E rel n []).2)
  | .file name _, rel, fs => by
    simp only [walk]
    exact visit_append P E fs rel name false
  | .broken _, _, fs => by simp [walk]
  | .dir name es, rel, fs => by
    simp only [walk]
    rw [visit_append P E fs rel name true]
    rcases hv : visit P E [] rel name true with ⟨f1, _ | e⟩
    · simp only []
      rw [walkEntries_append P E es rel (fs ++ f1), walkEntries_append P E es rel f1]
      simp
    · simp
theorem walkEntries_append (P E : List Str) : ∀ (ns : List Node) (rel : Path)
    (fs : List Path),
    walkEntries P E rel ns fs =
      (fs ++ (walkEntries P E rel ns []).1, (walkEntries P E rel ns []).2)
  | [], _, fs => by simp [walkEntries]
  | n :: ns, rel, fs => by
    simp only [walkEntries]
    rw [walk_append P E n (rel ++ [n.name]) fs]
    rcases hw : walk P E (rel ++ [n.name]) n [] with ⟨f1, _ | _ | _⟩
    · simp only []
      rw [walkEntries_append P E ns rel (fs ++ f1), walkEntries_append P E ns rel f1]
      simp
    · cases n with
      | dir nm es =>
        simp only []
        rw [walkEntries_append P E ns rel (fs ++ f1), walkEntries_append P E ns rel f1]
        simp
      | file nm d => simp
      | broken nm => simp
    · simp
end

/-! ## The selection list as a filter of the files of the tree -/

mutual
theorem allFiles_below : ∀ (n : Node) (rel p : Path), p ∈ allFiles rel n → rel <+: p
  | .file _ _, rel, p, h => by
    simp only [allFiles, List.mem_singleton] at h
    subst h; exact List.prefix_refl _
  | .broken _, _, _, h => by simp [allFiles] at h
  | .dir _ es, rel, p, h => by
    simp only [allFiles] at h
    exact (allFilesIn_below es rel p h).1
theorem allFilesIn_below : ∀ (ns : List Node) (rel p : Path), p ∈ allFilesIn rel ns →
    rel <+: p ∧ rel.length < p.length
  | [], _, _, h => by simp [allFilesIn] at h
  | n :: ns, rel, p, h => by
    simp only [allFilesIn, List.mem_append] at h
    rcases h with h | h
    · have h1 := allFiles_below n (rel ++ [n.name]) p h
      refine ⟨(List.prefix_append rel [n.name]).trans h1, ?_⟩
      have := h1.length_le
      simp at this
      omega
    · exact allFilesIn_below ns rel p h
end

theorem keepFrom_step (P E : List Str) (rootName : Str) (k : Nat) (p : Path)
    (h : k < p.length) :
    keepFrom P E rootName k p =
      (!prunedDir P rootName (p.take k) && keepFrom P E rootName (k + 1) p) := by
  unfold keepFrom
  have : p.length - k = (p.length - (k + 1)) + 1 := by omega
  rw [this, List.range'_succ]
  simp only [List.all_cons]
  cases fileQualifies P E rootName p <;> cases prunedDir P rootName (List.take k p) <;> simp

theorem keepFrom_self (P E : List Str) (rootName : Str) (p : Path) :
    keepFrom P E rootName p.length p = fileQualifies P E rootName p := by
  simp [keepFrom]

theorem take_of_below (rel p : Path) (h : rel <+: p) : p.take rel.length = rel := by
  obtain ⟨t, rfl⟩ := h
  simp

theorem git_hidden (name : Str) (h : hasPrefix name [46] = false) :
    (name == lit ".git") = false := by
  cases hn : name == lit ".git"
  · rfl
  · rw [beq_iff_eq] at hn
    subst hn
    revert h; decide

theorem visit_file_spec (P E : List Str) (rootName : Str) (rel : Path) (name : Str)
    (hn : entryName rootName rel = name) :
    visit P E [] rel name false =
      ([rel].filter (keepFrom P E rootName rel.length), none) := by
  simp only [keepFrom_self, fileQualifies, extPasses, hn, visit, List.filter_cons,
    List.filter_nil]
  cases hasPrefix name [46] <;> cases matchesGitignore (relString rel) P <;>
    cases E.isEmpty <;> cases List.contains E (Ext name) <;>
    cases (Ext name != lit ".txt") <;> simp

theorem visit_dir_spec (P E : List Str) (rootName : Str) (rel : Path) (name : Str)
    (hn : entryName rootName rel = name) :
    visit P E [] rel name true =
      ([], if prunedDir P rootName rel then some .SkipDir else none) := by
  simp only [prunedDir, hn, visit]
  cases h : hasPrefix name [46]
  · simp [git_hidden name h]
    cases matchesGitignore (relString rel) P <;> simp
  · cases name == lit ".git" <;> simp

theorem entryName_snoc (rootName : Str) (rel : Path) (c : Str) :
    entryName rootName (rel ++ [c]) = c := by
  simp [entryName]

theorem walk_skipDir_isDir (P E : List Str) (n : Node) (rel : Path) (fs f1 : List Path)
    (h : walk P E rel n fs = (f1, some .SkipDir)) : ∃ nm es, n = .dir nm es := by
  cases n with
  | dir nm es => exact ⟨nm, es, rfl⟩
  | broken nm => simp [walk] at h
  | file nm d =>
    simp only [walk, visit] at h
    split_ifs at h <;> simp_all

mutual
theorem walk_spec (P E : List Str) (rootName : Str) : ∀ (n : Node) (rel : Path),
    entryName rootName rel = n.name →
    (walk P E rel n []).1 <+: (allFiles rel n).filter (keepFrom P E rootName rel.length) ∧
    ((walk P E rel n []).2 ≠ some .failure →
      (walk P E rel n []).1 = (allFiles rel n).filter (keepFrom P E rootName rel.length))
  | .file name _, rel, hn => by
    simp only [walk, allFiles]
    rw [visit_file_spec P E rootName rel name hn]
    exact ⟨List.prefix_refl _, fun _ => rfl⟩
  | .broken _, rel, _ => by simp [walk, allFiles]
  | .dir name es, rel, hn => by
    simp only [walk, allFiles]
    rw [visit_dir_spec P E rootName rel name hn]
    have hstep : ∀ p ∈ allFilesIn rel es, keepFrom P E rootName rel.length p =
        (!prunedDir P rootName rel && keepFrom P E rootName (rel.length + 1) p) := by
      intro p hp
      obtain ⟨h1, h2⟩ := allFilesIn_below es rel p hp
      rw [keepFrom_step P E rootName rel.length p h2, take_of_below rel p h1]
    cases hpr : prunedDir P rootName rel
    · have hf : (allFilesIn rel es).filter (keepFrom P E rootName rel.length) =
          (allFilesIn rel es).filter (keepFrom P E rootName (rel.length + 1)) := by
        apply List.filter_congr
        intro p hp
        rw [hstep p hp, hpr]; simp
      simp only [Bool.false_eq_true, if_false]
      rw [hf]
      exact walkEntries_spec P E rootName es rel
    · have hf : (allFilesIn rel es).filter (keepFrom P E rootName rel.length) = [] := by
        rw [List.filter_eq_nil_iff]
        intro p hp
        rw [hstep p hp, hpr]; simp
      simp [hf]
theorem walkEntries_spec (P E : List Str) (rootName : Str) : ∀ (ns : List Node)
    (rel : Path),
    (walkEntries P E rel ns []).1 <+:
      (allFilesIn rel ns).filter (keepFrom P E rootName (rel.length + 1)) ∧
    ((walkEntries P E rel ns []).2 ≠ some .failure →
      (walkEntries P E rel ns []).1 =
        (allFilesIn rel ns).filter (keepFrom P E rootName (rel.length + 1)))
  | [], _ => by simp [walkEntries, allFilesIn]
  | n :: ns, rel => by
    have ih1 := walk_spec P E rootName n (rel ++ [n.name]) (entryName_snoc rootName rel n.name)
    have ih2 := walkEntries_spec P E rootName ns rel
    simp only [List.length_append, List.length_singleton] at ih1
    simp only [walkEntries, allFilesIn, List.filter_append]
    rcases hw : walk P E (rel ++ [n.name]) n [] with ⟨f1, _ | _ | _⟩
    · rw [hw] at ih1
      simp only [ne_eq, not_false_eq_true, forall_const, reduceCtorEq] at ih1
      simp only []
      rw [walkEntries_append, ← ih1.2]
      exact ⟨(List.prefix_append_right_inj f1).mpr ih2.1, fun h => by rw [ih2.2 h]⟩
    · obtain ⟨nm, es, rfl⟩ := walk_skipDir_isDir P E n _ _ _ hw
      rw [hw] at ih1
      have ih12 := ih1.2 (by simp)
      simp only []
      rw [walkEntries_append, ← ih12]
      exact ⟨(List.prefix_append_right_inj f1).mpr ih2.1, fun h => by rw [ih2.2 h]⟩
    · rw [hw] at ih1
      simp only []
      exact ⟨ih1.1.trans (List.prefix_append _ _), fun h => absurd rfl h⟩
end

theorem Walk_eq (P E : List Str) (root : Node) :
    Walk P E root = ((walk P E [] root []).1, (walk P E [] root []).2 == some .failure) := by
  unfold Walk
  rcases walk P E [] root [] with ⟨f, _ | _ | _⟩ <;> rfl

/-- A successful walk selects exactly the files of the tree that qualify and lie below no
pruned directory, in the order of the traversal. -/
theorem Walk_spec (P E : List Str) (root : Node) (files : List Path)
    (h : Walk P E root = (files, false)) :
    files = (allFiles [] root).filter (keepFrom P E root.name 0) := by
  rw [Walk_eq] at h
  have hs := walk_spec P E root.name root [] (by simp [entryName])
  simp only [Prod.mk.injEq, beq_eq_false_iff_ne, ne_eq] at h
  rw [← h.1]
  exact hs.2 h.2

/-- Whatever the walk has selected when it stops is among the files that qualify and lie
below no pruned directory. -/
theorem Walk_sound (P E : List Str) (root : Node) (p : Path)
    (h : p ∈ (Walk P E root).1) :
    p ∈ allFiles [] root ∧ keepFrom P E root.name 0 p = true := by
  rw [Walk_eq] at h
  have hs := walk_spec P E root.name root [] (by simp [entryName])
  have := hs.1.subset h
  simpa [List.mem_filter] using this

/-! ## C1: which files are selected -/

/-- C1, as stated, fails: in `sampleTree` with the single pattern `build` and no extension
filter, `.git/config` and `build/out.o` are regular files whose base name does not
start with a dot, whose relative path matches no pattern and whose extension passes
the filter, yet the walk selects neither, because it prunes the directories above
them. The files `notes.md` and `notes.txt` of the claim's example behave as stated. -/
theorem selection_claim_fails :
    Walk [lit "build"] [] sampleTree =
      ([[lit ".config", lit "tool.go"], [lit "a.go"], [lit "notes.md"]], false) ∧
    [lit ".git", lit "config"] ∈ allFiles [] sampleTree ∧
    fileQualifies [lit "build"] [] (lit "proj") [lit ".git", lit "config"] = true ∧
    [lit "build", lit "out.o"] ∈ allFiles [] sampleTree ∧
    fileQualifies [lit "build"] [] (lit "proj") [lit "build", lit "out.o"] = true := by
  decide

theorem keepFrom_zero (P E : List Str) (rootName : Str) (p : Path) :
    keepFrom P E rootName 0 p = true ↔
      fileQualifies P E rootName p = true ∧
        ∀ a ∈ ancestors p, prunedDir P rootName a = false := by
  simp [keepFrom, ancestors, List.range_eq_range']

/-- C1, amended: after a successful walk, a regular file of the tree, for which every
directory above it with a name starting with a dot is named `.git`, is in the
selection list if and only if its base name does not start with a dot, its relative
path matches no exclusion pattern, its extension passes the extension filter, and no
directory above it (the target directory included) is named `.git` or has a relative
path that matches an exclusion pattern. -/
theorem selection_iff (patterns extMap : List Str) (root : Node) (files : List Path)
    (p : Path) (hwalk : Walk patterns extMap root = (files, false))
    (hfile : p ∈ allFiles [] root)
    (hdots : ∀ a ∈ ancestors p, hasPrefix (entryName root.name a) [46] = true →
      entryName root.name a = lit ".git") :
    p ∈ files ↔
      (fileQualifies patterns extMap root.name p = true ∧
        ∀ a ∈ ancestors p, entryName root.name a ≠ lit ".git" ∧
          matchesGitignore (relString a) patterns = false) := by
  rw [Walk_spec patterns extMap root files hwalk, List.mem_filter, keepFrom_zero]
  simp only [hfile, true_and]
  apply and_congr_right
  intro _
  apply forall₂_congr
  intro a ha
  have hd := hdots a ha
  unfold prunedDir
  cases hh : hasPrefix (entryName root.name a) [46]
  · have hg := git_hidden _ hh
    have hne : entryName root.name a ≠ lit ".git" := by simpa using hg
    simp [hg, hne]
  · have := hd hh
    simp [this]

/-- Witness for `selection_iff`: the file `a.go` of `sampleTree`. -/
theorem selection_iff_witness :
    [lit "a.go"] ∈ [[lit ".config", lit "tool.go"], [lit "a.go"]] ↔
      (fileQualifies [lit "build"] (extMapOf (lit "go")) sampleTree.name [lit "a.go"] = true ∧
        ∀ a ∈ ancestors [lit "a.go"], entryName sampleTree.name a ≠ lit ".git" ∧
          matchesGitignore (relString a) [lit "build"] = false) :=
  selection_iff [lit "build"] (extMapOf (lit "go")) sampleTree
    [[lit ".config", lit "tool.go"], [lit "a.go"]] [lit "a.go"]
    (by decide) (by decide) (by decide)

/-! ## C3: a pattern ending in `/` is a prefix rule -/

/-- C3: if the pattern list contains a pattern `p` ending in `/` and the path begins with
`p` without its trailing `/`, then `matchesGitignore` returns true, whatever glob
matching says. With the pattern `build/` this holds for the path `build`, for every
path beginning with `build/`, and the walk prunes a directory `build` in the target
directory: it returns `SkipDir` without adding a file. -/
theorem prefix_pattern_matches :
    (∀ (patterns : List Str) (p path : Str), p ∈ patterns → hasSuffix p [47] = true →
      hasPrefix path (trimSuffix p [47]) = true → matchesGitignore path patterns = true) ∧
    (∀ patterns : List Str, lit "build/" ∈ patterns →
      matchesGitignore (lit "build") patterns = true ∧
      (∀ rest : Str, matchesGitignore (lit "build/" ++ rest) patterns = true) ∧
      (∀ (extMap : List Str) (entries : List Node) (files : List Path),
        walk patterns extMap [lit "build"] (.dir (lit "build") entries) files =
          (files, some .SkipDir))) := by
  have gen : ∀ (patterns : List Str) (p path : Str), p ∈ patterns →
      hasSuffix p [47] = true → hasPrefix path (trimSuffix p [47]) = true →
      matchesGitignore path patterns = true := by
    intro patterns p path hp hs hpre
    rw [matchesGitignore_eq_any]
    exact List.any_eq_true.mpr ⟨p, hp, by simp [prefixRule, hs, hpre]⟩
  refine ⟨gen, ?_⟩
  intro patterns hb
  have h1 : matchesGitignore (lit "build") patterns = true :=
    gen patterns (lit "build/") (lit "build") hb (by decide) (by decide)
  refine ⟨h1, ?_, ?_⟩
  · intro rest
    refine gen patterns (lit "build/") _ hb (by decide) ?_
    exact hasPrefix_append _ _ rest (by decide)
  · intro extMap entries files
    have hrel : relString [lit "build"] = lit "build" := by decide
    have hdot : hasPrefix (lit "build") [46] = false := by decide
    simp [walk, visit, hrel, hdot, h1]

/-- Witness for `prefix_pattern_matches`: the pattern `src/` and the path `src/x`. -/
theorem prefix_pattern_matches_witness :
    matchesGitignore (lit "src/x") [lit "*.o", lit "src/"] = true :=
  prefix_pattern_matches.1 [lit "*.o", lit "src/"] (lit "src/") (lit "src/x")
    (by decide) (by decide) (by decide)

/-! ## C4: hidden directories other than `.git` -/

/-- C4 fails on the code: in `sampleTree` the directory `.config` is hidden and is not
`.git`; the walk function returns nil for it, so `filepath.Walk` descends into it
and the file `.config/tool.go` beneath it is selected. -/
theorem hidden_directory_descended :
    Walk [] (extMapOf (lit "go")) sampleTree =
      ([[lit ".config", lit "tool.go"], [lit "a.go"]], false) ∧
    visit [] (extMapOf (lit "go")) [] [lit ".config"] (lit ".config") true = ([], none) := by
  decide

/-! ## C5: hidden files and the `.git` directory -/

/-- C5: whatever the tree, the patterns and the extension set, a path in the selection
list has a base name that does not start with a dot, and no directory above it (the
target directory included) is named `.git`; the walk function returns `SkipDir` for
a directory named `.git` whatever the patterns are. -/
theorem hidden_and_git_excluded (patterns extMap : List Str) (root : Node) (p : Path)
    (h : p ∈ (Walk patterns extMap root).1) :
    hasPrefix (entryName root.name p) [46] = false ∧
    (∀ a ∈ ancestors p, entryName root.name a ≠ lit ".git") ∧
    (∀ (rel : Path) (entries : List Node) (files : List Path),
      walk patterns extMap rel (.dir (lit ".git") entries) files =
        (files, some .SkipDir)) := by
  obtain ⟨_, hk⟩ := Walk_sound patterns extMap root p h
  rw [keepFrom_zero] at hk
  refine ⟨?_, ?_, ?_⟩
  · have := hk.1
    simp only [fileQualifies, Bool.and_eq_true, Bool.not_eq_true'] at this
    exact this.1.1
  · intro a ha hg
    have := hk.2 a ha
    simp [prunedDir, hg] at this
  · intro rel entries files
    have hdot : hasPrefix (lit ".git") [46] = true := by decide
    simp [walk, visit, hdot]

/-- Witness for `hidden_and_git_excluded`: `a.go` is selected in `sampleTree`, which also
holds `.secret` and `.git/config`. -/
theorem hidden_and_git_excluded_witness :
    [lit "a.go"] ∈ (Walk [] [] sampleTree).1 ∧
    [lit ".secret"] ∉ (Walk [] [] sampleTree).1 ∧
    [lit ".git", lit "config"] ∉ (Walk [] [] sampleTree).1 ∧
    hasPrefix (entryName sampleTree.name [lit "a.go"]) [46] = false :=
  ⟨by decide, by decide, by decide,
    (hidden_and_git_excluded [] [] sampleTree [lit "a.go"] (by decide)).1⟩

/-! ## C10: the target directory itself is checked against the patterns -/

/-- C10: for a root directory whose name does not start with a dot, if
`matchesGitignore` is true of the relative path `.`, the walk function returns
`SkipDir` at the root and the selection list is empty whatever the tree contains;
this is the case when the pattern list contains `*`, `?`, `.*` or `/`. -/
theorem root_pruned :
    (∀ (patterns extMap : List Str) (name : Str) (entries : List Node),
      hasPrefix name [46] = false → matchesGitignore (lit ".") patterns = true →
      walk patterns extMap [] (.dir name entries) [] = ([], some .SkipDir) ∧
      Walk patterns extMap (.dir name entries) = ([], false)) ∧
    (∀ (patterns : List Str) (p : Str), p ∈ patterns →
      p = lit "*" ∨ p = lit "?" ∨ p = lit ".*" ∨ p = lit "/" →
      matchesGitignore (lit ".") patterns = true) := by
  constructor
  · intro patterns extMap name entries hdot hm
    have hrel : relString [] = lit "." := by decide
    have hw : walk patterns extMap [] (.dir name entries) [] = ([], some .SkipDir) := by
      simp [walk, visit, hrel, hdot, hm]
    exact ⟨hw, by simp [Walk, hw]⟩
  · intro patterns p hp hcases
    apply matchesGitignore_of_mem (lit ".") p patterns hp
    rcases hcases with h | h | h | h <;> subst h <;> decide

/-- Witness for `root_pruned`: with the pattern `*` nothing of `sampleTree` is selected. -/
theorem root_pruned_witness :
    Walk [lit "*"] [] sampleTree = ([], false) :=
  (root_pruned.1 [lit "*"] [] (lit "proj") _ (by decide)
    (root_pruned.2 [lit "*"] (lit "*") (by decide) (Or.inl rfl))).2

/-! ## The concatenation loop -/

theorem concatLoop_eq (read : Path → Option Str) (files : List Path) (output : Str) :
    concatLoop read files output =
      output ++ (files.filterMap (fun f => (read f).map (record f))).flatten := by
  induction files generalizing output with
  | nil => simp [concatLoop]
  | cons f fs ih =>
    simp only [concatLoop, List.filterMap_cons]
    cases h : read f with
    | none => simp [ih]
    | some data => simp [ih, record]

theorem concatLoop_congr (read1 read2 : Path → Option Str) (files : List Path)
    (output : Str) (h : ∀ f ∈ files, read1 f = read2 f) :
    concatLoop read1 files output = concatLoop read2 files output := by
  rw [concatLoop_eq, concatLoop_eq]
  congr 2
  apply List.filterMap_congr
  intro f hf
  rw [h f hf]

/-! ## C2: the output buffer when every file is readable -/

/-- C2: when every file of the selection list is readable, the output buffer is the
concatenation, in list order, of one record per file: relative path, a line break,
the bytes of the file, two line breaks. Its length is the sum of path length plus
content length plus 3, and the empty list gives the empty buffer. -/
theorem output_is_records (read : Path → Option Str) (content : Path → Str)
    (files : List Path) (hread : ∀ f ∈ files, read f = some (content f)) :
    concatLoop read files [] =
      (files.map (fun f => relString f ++ [10] ++ content f ++ [10, 10])).flatten ∧
    (concatLoop read files []).length =
      (files.map (fun f => (relString f).length + (content f).length + 3)).sum ∧
    concatLoop read [] [] = [] := by
  have h1 : concatLoop read files [] =
      (files.map (fun f => relString f ++ [10] ++ content f ++ [10, 10])).flatten := by
    rw [concatLoop_eq, List.nil_append]
    congr 1
    induction files with
    | nil => rfl
    | cons f fs ih =>
      have hf := hread f (List.mem_cons_self f fs)
      simp only [List.filterMap_cons, hf, Option.map_some', List.map_cons, record]
      rw [ih (fun g hg => hread g (List.mem_cons_of_mem f hg))]
  refine ⟨h1, ?_, rfl⟩
  rw [h1, List.length_flatten, List.map_map]
  congr 1
  apply List.map_congr_left
  intro f _
  simp only [Function.comp, List.length_append, List.length_cons, List.length_nil]
  omega

/-- Witness for `output_is_records`: two readable files. -/
theorem output_is_records_witness :
    concatLoop (readFile sampleTree) [[lit "a.go"], [lit "build", lit "out.o"]] [] =
      lit "a.go\npackage a\n\nbuild/out.o\nobj\n\n" :=
  (output_is_records (readFile sampleTree)
    (fun f => if f = [lit "a.go"] then lit "package a" else lit "obj")
    [[lit "a.go"], [lit "build", lit "out.o"]] (by decide)).1.trans (by decide)

/-! ## C8: files that cannot be read -/

theorem concatLoop_filter (read : Path → Option Str) (files : List Path) (output : Str) :
    concatLoop read files output =
      concatLoop read (files.filter (fun f => (read f).isSome)) output := by
  induction files generalizing output with
  | nil => rfl
  | cons f fs ih =>
    cases h : read f with
    | none => simp [concatLoop, h, ih]
    | some data => simp [concatLoop, h, ih]

/-- C8: the concatenation loop skips exactly the files that cannot be read: the buffer is
the one produced for the sublist of readable files, made of their records in order,
and a file that cannot be read adds nothing. The read failures are not fatal: after
a successful walk, if the final write succeeds the run ends with status 0 and the
bytes written are that buffer. -/
theorem unreadable_files_skipped (read : Path → Option Str) (fs : List Path)
    (cfg : Config) (root root1 : Node) (files : List Path)
    (hwalk : Walk (readGitignore (ignoreContent root)) (extMapOf cfg.extensions) root =
      (files, false))
    (hwrite : writeOutput cfg.output (concatLoop (readFile root) files []) root =
      some root1) :
    concatLoop read fs [] = concatLoop read (fs.filter (fun f => (read f).isSome)) [] ∧
    concatLoop read fs [] = (fs.filterMap (fun f => (read f).map (record f))).flatten ∧
    (main cfg root).status = 0 ∧
    (main cfg root).written =
      some (concatLoop (readFile root)
        (files.filter (fun f => (readFile root f).isSome)) []) := by
  refine ⟨concatLoop_filter read fs [], by rw [concatLoop_eq, List.nil_append], ?_, ?_⟩
  · simp [main, hwalk, hwrite]
  · simp only [main, hwalk, hwrite]
    rw [← concatLoop_filter]

/-- Witness for `unreadable_files_skipped`: `b.go` of `lockedTree` cannot be read; the run
ends with status 0 and writes the records of `a.go` and `c.go`. -/
theorem unreadable_files_skipped_witness :
    (main ⟨lit "go", .outside true⟩ lockedTree).status = 0 ∧
    (main ⟨lit "go", .outside true⟩ lockedTree).written =
      some (lit "a.go\npackage a\n\nc.go\npackage c\n\n") :=
  have h := unreadable_files_skipped (readFile lockedTree) [[lit "b.go"]]
    ⟨lit "go", .outside true⟩ lockedTree lockedTree
    [[lit "a.go"], [lit "b.go"], [lit "c.go"]] (by decide) rfl
  ⟨h.2.2.1, h.2.2.2.trans (by decide)⟩

/-! ## C6: the lines of the ignore file -/

theorem rawLines_cons_ne_nil (b : Nat) (rest : Str) : rawLines (b :: rest) ≠ [] := by
  unfold rawLines
  split_ifs
  · simp
  · split <;> simp

theorem rawLines_eq (b : Nat) (rest : Str) :
    rawLines (b :: rest) =
      (b :: rest).takeWhile (fun x => x != 10) ::
        rawLines ((b :: rest).drop (((b :: rest).takeWhile (fun x => x != 10)).length + 1)) := by
  induction rest generalizing b with
  | nil =>
    by_cases hb : b = 10
    · subst hb; simp [rawLines]
    · simp [rawLines, hb]
  | cons c r ih =>
    by_cases hb : b = 10
    · subst hb; simp [rawLines]
    · have := ih c
      have hne := rawLines_cons_ne_nil c r
      rw [rawLines]
      simp only [beq_iff_eq, hb, if_false]
      rw [this]
      simp [List.takeWhile_cons, hb]

theorem drop_takeWhile_length_lt (b : Nat) (rest : Str) :
    ((b :: rest).drop (((b :: rest).takeWhile (fun x => x != 10)).length + 1)).length <
      (b :: rest).length := by
  simp only [List.length_drop, List.length_cons]
  omega

theorem readLoop_spec : ∀ (fuel : Nat) (data : Str) (acc : List Str),
    data.length ≤ fuel → (∀ l ∈ rawLines data, l.length < maxScanTokenSize) →
    readLoop fuel data acc = acc ++ claimedPatterns data
  | 0, data, acc, hlen, _ => by
    have : data = [] := List.length_eq_zero.mp (Nat.le_zero.mp hlen)
    subst this
    simp [readLoop, claimedPatterns, rawLines]
  | fuel + 1, [], acc, _, _ => by
    simp [readLoop, scanStep, claimedPatterns, rawLines]
  | fuel + 1, b :: rest, acc, hlen, hshort => by
    have hraw := rawLines_eq b rest
    have hl : ((b :: rest).takeWhile (fun x => x != 10)).length < maxScanTokenSize :=
      hshort _ (by rw [hraw]; exact List.mem_cons_self _ _)
    have hlt := drop_takeWhile_length_lt b rest
    have hrest : ∀ l ∈ rawLines ((b :: rest).drop
        (((b :: rest).takeWhile (fun x => x != 10)).length + 1)),
        l.length < maxScanTokenSize := by
      intro l hl'
      exact hshort l (by rw [hraw]; exact List.mem_cons_of_mem _ hl')
    have hfuel : ((b :: rest).drop
        (((b :: rest).takeWhile (fun x => x != 10)).length + 1)).length ≤ fuel := by
      simp only [List.length_cons] at hlt hlen
      omega
    have hstep : scanStep (b :: rest) =
        .token (dropCR ((b :: rest).takeWhile (fun x => x != 10)))
          ((b :: rest).drop (((b :: rest).takeWhile (fun x => x != 10)).length + 1)) := by
      simp only [scanStep, List.isEmpty_cons, Bool.false_eq_true, if_false]
      rw [if_neg (Nat.not_le.mpr hl)]
    rw [readLoop, hstep]
    simp only []
    have hc : claimedPatterns (b :: rest) =
        (if !trimsToEmpty (dropCR ((b :: rest).takeWhile (fun x => x != 10))) &&
            !hasPrefix (dropCR ((b :: rest).takeWhile (fun x => x != 10))) [35]
          then [dropCR ((b :: rest).takeWhile (fun x => x != 10))] else []) ++
        claimedPatterns ((b :: rest).drop
          (((b :: rest).takeWhile (fun x => x != 10)).length + 1)) := by
      conv_lhs => rw [claimedPatterns, hraw]
      simp only [List.map_cons, List.filter_cons, claimedPatterns]
      split_ifs <;> simp
    rw [hc]
    split_ifs with hk
    · rw [readLoop_spec fuel _ _ hfuel hrest]; simp
    · rw [readLoop_spec fuel _ _ hfuel hrest]; simp

theorem takeWhile_line (line rest : Str) (hnl : ∀ x ∈ line, x ≠ 10) :
    (line ++ 10 :: rest).takeWhile (fun x => x != 10) = line := by
  rw [List.takeWhile_append_of_pos]
  · simp
  · intro x hx
    simpa using hnl x hx

theorem scanStep_tooLong (line rest : Str) (hnl : ∀ x ∈ line, x ≠ 10)
    (hlong : maxScanTokenSize ≤ line.length) :
    scanStep (line ++ 10 :: rest) = .tooLong := by
  unfold scanStep
  rw [takeWhile_line line rest hnl]
  have hne : (line ++ 10 :: rest).isEmpty = false := by
    cases line <;> rfl
  simp [hne, hlong]

theorem rawLines_line (line rest : Str) (hnl : ∀ x ∈ line, x ≠ 10) :
    rawLines (line ++ 10 :: rest) = line :: rawLines rest := by
  induction line with
  | nil => simp [rawLines]
  | cons a l ih =>
    have ha : a ≠ 10 := hnl a (List.mem_cons_self a l)
    have ih1 := ih (fun x hx => hnl x (List.mem_cons_of_mem a hx))
    rw [List.cons_append, rawLines_eq]
    have htw : (a :: (l ++ 10 :: rest)).takeWhile (fun x => x != 10) = a :: l :=
      takeWhile_line (a :: l) rest hnl
    rw [htw]
    simp

theorem long_line_stops (n : Nat) (rest : Str) (hn : maxScanTokenSize ≤ n) :
    readGitignore (some (List.replicate n 97 ++ 10 :: rest)) = [] := by
  have hnl : ∀ x ∈ List.replicate n 97, x ≠ 10 := by
    intro x hx
    rw [List.eq_of_mem_replicate hx]
    decide
  have hlen : (List.replicate n 97 ++ 10 :: rest).length = (n + rest.length) + 1 := by
    simp only [List.length_append, List.length_replicate, List.length_cons]
    omega
  rw [readGitignore, hlen, readLoop,
    scanStep_tooLong _ _ hnl (by rw [List.length_replicate]; exact hn)]

theorem long_line_second (n : Nat) :
    [98] ∈ claimedPatterns (List.replicate n 97 ++ 10 :: [98]) := by
  have hnl : ∀ x ∈ List.replicate n 97, x ≠ 10 := by
    intro x hx
    rw [List.eq_of_mem_replicate hx]
    decide
  rw [claimedPatterns, rawLines_line _ _ hnl]
  have h1 : rawLines [98] = [[98]] := by decide
  rw [h1, List.mem_filter]
  refine ⟨?_, by decide⟩
  simp only [List.map_cons, List.map_nil]
  apply List.mem_cons_of_mem
  have : dropCR [98] = [98] := by decide
  rw [this]
  exact List.mem_singleton.mpr rfl

/-- C6, as stated, fails: in `longLineContent` the first line has 65536 bytes, which does
not fit the buffer of the scanner; `Scan` stops with `ErrTooLong` and `readGitignore`
returns no pattern, although the second line `b` is neither blank nor a comment. -/
theorem long_line_claim_fails :
    readGitignore (some longLineContent) = [] ∧
    [98] ∈ claimedPatterns longLineContent :=
  ⟨long_line_stops 65536 [98] (Nat.le_refl _), long_line_second 65536⟩

/-! ## The tree after the write of the output file -/

theorem find_replaceEntry_same (c : Str) (n1 : Node) (h1 : n1.name = c) :
    ∀ (es : List Node) (n : Node), es.find? (fun m => m.name == c) = some n →
      (replaceEntry c n1 es).find? (fun m => m.name == c) = some n1
  | [], _, h => by simp at h
  | m :: ms, n, h => by
    by_cases hm : m.name = c
    · simp [replaceEntry, hm, h1]
    · have h' : ms.find? (fun m => m.name == c) = some n := by
        simpa [List.find?_cons, hm] using h
      have hb : (m.name == c) = false := by simpa using hm
      simp only [replaceEntry, hb, Bool.false_eq_true, if_false, List.find?_cons]
      exact find_replaceEntry_same c n1 h1 ms n h'

theorem find_replaceEntry_other (c d : Str) (n1 : Node) (h1 : n1.name = c) (hd : d ≠ c) :
    ∀ es : List Node, (replaceEntry c n1 es).find? (fun m => m.name == d) =
      es.find? (fun m => m.name == d)
  | [] => rfl
  | m :: ms => by
    by_cases hm : m.name = c
    · have hmd : ¬ m.name = d := fun h => hd (h.symm.trans hm)
      have h1d : ¬ n1.name = d := fun h => hd (h.symm.trans h1)
      simp [replaceEntry, hm, List.find?_cons, h1, hmd, Ne.symm hd]
    · have hb : (m.name == c) = false := by simpa using hm
      simp only [replaceEntry, hb, Bool.false_eq_true, if_false, List.find?_cons]
      rw [find_replaceEntry_other c d n1 h1 hd ms]

theorem find_insertEntry_same (c : Str) (n1 : Node) (h1 : n1.name = c) :
    ∀ es : List Node, es.find? (fun m => m.name == c) = none →
      (insertEntry n1 es).find? (fun m => m.name == c) = some n1
  | [], _ => by simp [insertEntry, h1]
  | m :: ms, h => by
    have hm : ¬ m.name = c := by
      intro hm
      simp [List.find?_cons, hm] at h
    have h' : ms.find? (fun m => m.name == c) = none := by
      simpa [List.find?_cons, hm] using h
    unfold insertEntry
    split_ifs
    · simp [h1]
    · have hb : (m.name == c) = false := by simpa using hm
      simp only [List.find?_cons, hb]
      exact find_insertEntry_same c n1 h1 ms h'

theorem find_insertEntry_other (c d : Str) (n1 : Node) (h1 : n1.name = c) (hd : d ≠ c) :
    ∀ es : List Node, (insertEntry n1 es).find? (fun m => m.name == d) =
      es.find? (fun m => m.name == d)
  | [] => by
    have h1d : ¬ n1.name = d := fun h => hd (h.symm.trans h1)
    simp [insertEntry, h1d]
  | m :: ms => by
    have h1d : ¬ n1.name = d := fun h => hd (h.symm.trans h1)
    unfold insertEntry
    split_ifs
    · simp [List.find?_cons, h1d]
    · simp only [List.find?_cons]
      rw [find_insertEntry_other c d n1 h1 hd ms]

theorem find_name (c : Str) (es : List Node) (n : Node)
    (h : es.find? (fun m => m.name == c) = some n) : n.name = c := by
  have := List.find?_some h
  simpa using this

theorem writeFile_name : ∀ (o : Path) (data : Str) (n n1 : Node),
    writeFile o data n = some n1 → n1.name = n.name
  | [], data, .file name (some _), n1, h => by
    simp only [writeFile, Option.some.injEq] at h
    subst h; rfl
  | [], _, .file _ none, _, h => by simp [writeFile] at h
  | [], _, .dir _ _, _, h => by simp [writeFile] at h
  | [], _, .broken _, _, h => by simp [writeFile] at h
  | _ :: _, _, .file _ _, _, h => by simp [writeFile] at h
  | _ :: _, _, .broken _, _, h => by simp [writeFile] at h
  | c :: cs, data, .dir name es, n1, h => by
    simp only [writeFile] at h
    split at h
    · simp only [Option.map_eq_some'] at h
      obtain ⟨_, _, rfl⟩ := h
      rfl
    · split_ifs at h
      simp only [Option.some.injEq] at h
      subst h; rfl

theorem readFile_nil_dir (name : Str) (es : List Node) : readFile (.dir name es) [] = none := rfl

theorem readFile_cons_dir (name : Str) (es : List Node) (c : Str) (cs : Path) :
    readFile (.dir name es) (c :: cs) =
      match es.find? (fun m => m.name == c) with
      | some child => readFile child cs
      | none => none := by
  simp only [readFile, lookup]
  cases es.find? (fun m => m.name == c) <;> rfl

/-- Reading a path other than the one written gives the same result after the write. -/
theorem readFile_writeFile : ∀ (o : Path) (data : Str) (n n1 : Node) (q : Path),
    writeFile o data n = some n1 → q ≠ o → readFile n1 q = readFile n q
  | [], data, .file name (some _), n1, q, h, hq => by
    simp only [writeFile, Option.some.injEq] at h
    subst h
    cases q with
    | nil => exact absurd rfl hq
    | cons d ds => rfl
  | [], _, .file _ none, _, _, h, _ => by simp [writeFile] at h
  | [], _, .dir _ _, _, _, h, _ => by simp [writeFile] at h
  | [], _, .broken _, _, _, h, _ => by simp [writeFile] at h
  | _ :: _, _, .file _ _, _, _, h, _ => by simp [writeFile] at h
  | _ :: _, _, .broken _, _, _, h, _ => by simp [writeFile] at h
  | c :: cs, data, .dir name es, n1, q, h, hq => by
    simp only [writeFile] at h
    split at h
    · rename_i child hfind
      simp only [Option.map_eq_some'] at h
      obtain ⟨child1, hw, rfl⟩ := h
      have hn1 : child1.name = c :=
        (writeFile_name cs data child child1 hw).trans (find_name c es child hfind)
      cases q with
      | nil => rfl
      | cons d ds =>
        rw [readFile_cons_dir, readFile_cons_dir]
        by_cases hd : d = c
        · subst hd
          rw [find_replaceEntry_same d child1 hn1 es child hfind, hfind]
          have hds : ds ≠ cs := fun e => hq (by rw [e])
          exact readFile_writeFile cs data child child1 ds hw hds
        · rw [find_replaceEntry_other c d child1 hn1 hd es]
    · rename_i hfind
      split_ifs at h with hcs
      simp only [Option.some.injEq] at h
      subst h
      have hcs' : cs = [] := by simpa using hcs
      subst hcs'
      cases q with
      | nil => rfl
      | cons d ds =>
        rw [readFile_cons_dir, readFile_cons_dir]
        by_cases hd : d = c
        · subst hd
          rw [find_insertEntry_same d (.file d (some data)) rfl es hfind, hfind]
          cases ds with
          | nil => exact absurd rfl hq
          | cons e es' => rfl
        · rw [find_insertEntry_other c d (.file c (some data)) rfl hd es]

/-- A path that has been written can be written again. -/
theorem writeFile_again : ∀ (o : Path) (data data2 : Str) (n n1 : Node),
    writeFile o data n = some n1 → ∃ n2, writeFile o data2 n1 = some n2
  | [], data, data2, .file name (some _), n1, h => by
    simp only [writeFile, Option.some.injEq] at h
    subst h
    exact ⟨_, rfl⟩
  | [], _, _, .file _ none, _, h => by simp [writeFile] at h
  | [], _, _, .dir _ _, _, h => by simp [writeFile] at h
  | [], _, _, .broken _, _, h => by simp [writeFile] at h
  | _ :: _, _, _, .file _ _, _, h => by simp [writeFile] at h
  | _ :: _, _, _, .broken _, _, h => by simp [writeFile] at h
  | c :: cs, data, data2, .dir name es, n1, h => by
    simp only [writeFile] at h
    split at h
    · rename_i child hfind
      simp only [Option.map_eq_some'] at h
      obtain ⟨child1, hw, rfl⟩ := h
      have hn1 : child1.name = c :=
        (writeFile_name cs data child child1 hw).trans (find_name c es child hfind)
      obtain ⟨child2, hw2⟩ := writeFile_again cs data data2 child child1 hw
      refine ⟨.dir name (replaceEntry c child2 (replaceEntry c child1 es)), ?_⟩
      simp only [writeFile]
      rw [find_replaceEntry_same c child1 hn1 es child hfind]
      simp [hw2]
    · rename_i hfind
      split_ifs at h with hcs
      simp only [Option.some.injEq] at h
      subst h
      have hcs' : cs = [] := by simpa using hcs
      subst hcs'
      refine ⟨.dir name (replaceEntry c (.file c (some data2))
        (insertEntry (.file c (some data)) es)), ?_⟩
      simp only [writeFile]
      rw [find_insertEntry_same c (.file c (some data)) rfl es hfind]
      simp [writeFile]

/-! ## The walk after the write of the output file -/

theorem walkEntries_cons_eq (P E : List Str) (rel : Path) (n : Node) (ns : List Node) :
    walkEntries P E rel (n :: ns) [] =
      if (walk P E (rel ++ [n.name]) n []).2 = some .failure then
        ((walk P E (rel ++ [n.name]) n []).1, some .failure)
      else
        ((walk P E (rel ++ [n.name]) n []).1 ++ (walkEntries P E rel ns []).1,
          (walkEntries P E rel ns []).2) := by
  simp only [walkEntries]
  rcases hw : walk P E (rel ++ [n.name]) n [] with ⟨f1, _ | _ | _⟩
  · simp only [reduceCtorEq, if_false]
    rw [walkEntries_append]
  · obtain ⟨nm, es, rfl⟩ := walk_skipDir_isDir P E n _ _ _ hw
    simp only [Option.some.injEq, reduceCtorEq, if_false]
    rw [walkEntries_append]
  · simp

theorem walk_file (P E : List Str) (rel : Path) (nm : Str) (d : Option Str) :
    (walk P E rel (.file nm d) []).2 = none ∧
      ((walk P E rel (.file nm d) []).1 = [] ∨ (walk P E rel (.file nm d) []).1 = [rel]) := by
  simp only [walk, visit]
  split_ifs <;> simp_all

theorem walk_file_data (P E : List Str) (rel : Path) (nm : Str) (d d1 : Option Str)
    (fs : List Path) :
    walk P E rel (.file nm d) fs = walk P E rel (.file nm d1) fs := by
  simp only [walk]

theorem walkEntries_replace (P E : List Str) (rel t : Path) (c : Str) (child child1 : Node)
    (hn1 : child1.name = c)
    (hst : (walk P E (rel ++ [c]) child1 []).2 = (walk P E (rel ++ [c]) child []).2)
    (hsel : (walk P E (rel ++ [c]) child1 []).1 = (walk P E (rel ++ [c]) child []).1 ∨
      t ∈ (walk P E (rel ++ [c]) child1 []).1) :
    ∀ es : List Node, es.find? (fun m => m.name == c) = some child →
      (walkEntries P E rel (replaceEntry c child1 es) []).2 = (walkEntries P E rel es []).2 ∧
      ((walkEntries P E rel (replaceEntry c child1 es) []).1 = (walkEntries P E rel es []).1 ∨
        t ∈ (walkEntries P E rel (replaceEntry c child1 es) []).1)
  | [], h => by simp at h
  | m :: ms, h => by
    by_cases hm : m.name = c
    · have hchild : child = m := by
        simpa [List.find?_cons, hm] using h.symm
      subst hchild
      have hre : replaceEntry c child1 (child :: ms) = child1 :: ms := by
        simp [replaceEntry, hm]
      rw [hre, walkEntries_cons_eq, walkEntries_cons_eq, hn1, hm, hst]
      split_ifs
      · refine ⟨rfl, ?_⟩
        rcases hsel with h1 | h1
        · exact Or.inl h1
        · exact Or.inr h1
      · refine ⟨rfl, ?_⟩
        rcases hsel with h1 | h1
        · exact Or.inl (by rw [h1])
        · exact Or.inr (List.mem_append_left _ h1)
    · have hb : (m.name == c) = false := by simpa using hm
      have h' : ms.find? (fun m => m.name == c) = some child := by
        simpa [List.find?_cons, hb] using h
      have ih := walkEntries_replace P E rel t c child child1 hn1 hst hsel ms h'
      have hre : replaceEntry c child1 (m :: ms) = m :: replaceEntry c child1 ms := by
        simp [replaceEntry, hb]
      rw [hre, walkEntries_cons_eq, walkEntries_cons_eq P E rel m ms]
      split_ifs
      · exact ⟨rfl, Or.inl rfl⟩
      · refine ⟨ih.1, ?_⟩
        rcases ih.2 with h1 | h1
        · exact Or.inl (by rw [h1])
        · exact Or.inr (List.mem_append_right _ h1)

theorem walkEntries_insert (P E : List Str) (rel : Path) (c : Str) (d : Option Str) :
    ∀ es : List Node,
      (walkEntries P E rel (insertEntry (.file c d) es) []).2 =
        (walkEntries P E rel es []).2 ∧
      ((walkEntries P E rel (insertEntry (.file c d) es) []).1 =
          (walkEntries P E rel es []).1 ∨
        (rel ++ [c]) ∈ (walkEntries P E rel (insertEntry (.file c d) es) []).1)
  | [] => by
    obtain ⟨h1, h2⟩ := walk_file P E (rel ++ [c]) c d
    simp only [insertEntry]
    rw [walkEntries_cons_eq]
    simp only [Node.name, h1, reduceCtorEq, if_false, walkEntries, List.append_nil]
    refine ⟨trivial, ?_⟩
    rcases h2 with h2 | h2
    · exact Or.inl h2
    · exact Or.inr (by rw [h2]; exact List.mem_singleton.mpr rfl)
  | m :: ms => by
    obtain ⟨h1, h2⟩ := walk_file P E (rel ++ [c]) c d
    unfold insertEntry
    split_ifs
    · rw [walkEntries_cons_eq P E rel (.file c d) (m :: ms)]
      simp only [Node.name, h1, reduceCtorEq, if_false]
      refine ⟨trivial, ?_⟩
      rcases h2 with h2 | h2
      · exact Or.inl (by rw [h2]; rfl)
      · exact Or.inr (List.mem_append_left _ (by rw [h2]; exact List.mem_singleton.mpr rfl))
    · have ih := walkEntries_insert P E rel c d ms
      rw [walkEntries_cons_eq, walkEntries_cons_eq P E rel m ms]
      split_ifs
      · exact ⟨rfl, Or.inl rfl⟩
      · refine ⟨ih.1, ?_⟩
        rcases ih.2 with h3 | h3
        · exact Or.inl (by rw [h3])
        · exact Or.inr (List.mem_append_right _ h3)

/-- Writing a file changes the result of the walk at most by the selection of the path
written. -/
theorem walk_writeFile (P E : List Str) : ∀ (o : Path) (data : Str) (n n1 : Node)
    (rel : Path), writeFile o data n = some n1 →
    (walk P E rel n1 []).2 = (walk P E rel n []).2 ∧
    ((walk P E rel n1 []).1 = (walk P E rel n []).1 ∨ (rel ++ o) ∈ (walk P E rel n1 []).1)
  | [], data, .file name (some _), n1, rel, h => by
    simp only [writeFile, Option.some.injEq] at h
    subst h
    rw [walk_file_data P E rel name (some data) (some _)]
    exact ⟨rfl, Or.inl rfl⟩
  | [], _, .file _ none, _, _, h => by simp [writeFile] at h
  | [], _, .dir _ _, _, _, h => by simp [writeFile] at h
  | [], _, .broken _, _, _, h => by simp [writeFile] at h
  | _ :: _, _, .file _ _, _, _, h => by simp [writeFile] at h
  | _ :: _, _, .broken _, _, _, h => by simp [writeFile] at h
  | c :: cs, data, .dir name es, n1, rel, h => by
    simp only [writeFile] at h
    split at h
    · rename_i child hfind
      simp only [Option.map_eq_some'] at h
      obtain ⟨child1, hw, rfl⟩ := h
      have hn1 : child1.name = c :=
        (writeFile_name cs data child child1 hw).trans (find_name c es child hfind)
      have ih := walk_writeFile P E cs data child child1 (rel ++ [c]) hw
      have ht : rel ++ [c] ++ cs = rel ++ c :: cs := by simp
      rw [ht] at ih
      have key := walkEntries_replace P E rel (rel ++ c :: cs) c child child1 hn1 ih.1 ih.2
        es hfind
      simp only [walk]
      rcases visit P E [] rel name true with ⟨f1, _ | e⟩
      · simp only []
        rw [walkEntries_append P E _ rel f1, walkEntries_append P E es rel f1]
        refine ⟨key.1, ?_⟩
        rcases key.2 with h1 | h1
        · exact Or.inl (by rw [h1])
        · exact Or.inr (List.mem_append_right _ h1)
      · exact ⟨rfl, Or.inl rfl⟩
    · rename_i hfind
      split_ifs at h with hcs
      simp only [Option.some.injEq] at h
      subst h
      have hcs' : cs = [] := by simpa using hcs
      subst hcs'
      have key := walkEntries_insert P E rel c (some data) es
      simp only [walk]
      rcases visit P E [] rel name true with ⟨f1, _ | e⟩
      · simp only []
        rw [walkEntries_append P E _ rel f1, walkEntries_append P E es rel f1]
        refine ⟨key.1, ?_⟩
        rcases key.2 with h1 | h1
        · exact Or.inl (by rw [h1])
        · exact Or.inr (List.mem_append_right _ h1)
      · exact ⟨rfl, Or.inl rfl⟩

/-! ## C9: running the tool twice -/

/-- C9, as stated, fails: with the output file `out.md` inside the target directory and
no extension filter, the first run on `notesTree` writes the record of `a.md`; the
second run, on the tree the first run left behind, selects `out.md` as well and
writes a longer file. -/
theorem rerun_claim_fails :
    (main notesConfig notesTree).status = 0 ∧
    (main notesConfig notesTree).written = some (lit "a.md\nx\n\n") ∧
    (main notesConfig (main notesConfig notesTree).root).status = 0 ∧
    (main notesConfig (main notesConfig notesTree).root).written =
      some (lit "a.md\nx\n\nout.md\na.md\nx\n\n\n\n") ∧
    (main notesConfig (main notesConfig notesTree).root).written ≠
      (main notesConfig notesTree).written := by
  decide

/-- C9, amended: a second run with the same configuration, on the tree the first run
left behind, ends with the same status and writes the same bytes, provided that the
output file, when it lies in the target tree, is not `.gitignore` in the target
directory and is not among the files that the second run selects. -/
theorem rerun_same_output (cfg : Config) (root : Node)
    (hout : ∀ o : Path, cfg.output = .inTree o →
      o ≠ [lit ".gitignore"] ∧
      o ∉ (Walk (readGitignore (ignoreContent (main cfg root).root))
        (extMapOf cfg.extensions) (main cfg root).root).1) :
    (main cfg (main cfg root).root).status = (main cfg root).status ∧
    (main cfg (main cfg root).root).written = (main cfg root).written := by
  rcases hW : Walk (readGitignore (ignoreContent root)) (extMapOf cfg.extensions) root with
    ⟨files, failed⟩
  cases failed with
  | true =>
    have hm : main cfg root = ⟨1, none, root⟩ := by simp [main, hW]
    rw [hm]
    simp [hm]
  | false =>
    rcases cfg with ⟨ext, loc⟩
    cases loc with
    | outside w =>
      cases w with
      | false =>
        have hm : main ⟨ext, .outside false⟩ root = ⟨1, none, root⟩ := by
          simp only [main] at *
          simp [hW, writeOutput]
        rw [hm]
        simp [hm]
      | true =>
        have hm : main ⟨ext, .outside true⟩ root =
            ⟨0, some (concatLoop (readFile root) files []), root⟩ := by
          simp only [main] at *
          simp [hW, writeOutput]
        rw [hm]
        simp [hm]
    | inTree o =>
      cases hwr : writeFile o (concatLoop (readFile root) files []) root with
      | none =>
        have hm : main ⟨ext, .inTree o⟩ root = ⟨1, none, root⟩ := by
          simp only [main] at *
          simp [hW, writeOutput, hwr]
        rw [hm]
        simp [hm]
      | some root1 =>
        have hm : main ⟨ext, .inTree o⟩ root =
            ⟨0, some (concatLoop (readFile root) files []), root1⟩ := by
          simp only [main] at *
          simp [hW, writeOutput, hwr]
        rw [hm] at hout ⊢
        simp only at hout ⊢
        obtain ⟨hne, hnot⟩ := hout o rfl
        have hign : ignoreContent root1 = ignoreContent root :=
          readFile_writeFile o _ root root1 [lit ".gitignore"] hwr (Ne.symm hne)
        rw [hign] at hnot
        have hwalk := walk_writeFile (readGitignore (ignoreContent root)) (extMapOf ext)
          o _ root root1 [] hwr
        rw [Walk_eq] at hW hnot
        simp only [List.nil_append] at hwalk
        simp only [Prod.mk.injEq] at hW
        have hsel : (walk (readGitignore (ignoreContent root)) (extMapOf ext) [] root1 []).1 =
            files := by
          rcases hwalk.2 with h | h
          · rw [h]; exact hW.1
          · exact absurd h hnot
        have hW1 : Walk (readGitignore (ignoreContent root1)) (extMapOf ext) root1 =
            (files, false) := by
          rw [hign, Walk_eq, hsel, hwalk.1, hW.2]
        have hread : ∀ f ∈ files, readFile root1 f = readFile root f := by
          intro f hf
          apply readFile_writeFile o _ root root1 f hwr
          intro hfo
          subst hfo
          exact hnot (by rw [hsel]; exact hf)
        have hcat : concatLoop (readFile root1) files [] =
            concatLoop (readFile root) files [] :=
          concatLoop_congr _ _ files [] hread
        obtain ⟨root2, hwr2⟩ := writeFile_again o _ (concatLoop (readFile root) files [])
          root root1 hwr
        have hm2 : main ⟨ext, .inTree o⟩ root1 =
            ⟨0, some (concatLoop (readFile root) files []), root2⟩ := by
          simp only [main]
          simp [hW1, writeOutput, hcat, hwr2]
        rw [hm2]
        exact ⟨rfl, rfl⟩

/-- Witness for `rerun_same_output`: the default output file `output.txt` in the target
directory `sampleTree`, with no extension filter; both runs write the same bytes. -/
theorem rerun_same_output_witness :
    (main ⟨[], .inTree [lit "output.txt"]⟩
        (main ⟨[], .inTree [lit "output.txt"]⟩ sampleTree).root).status =
      (main ⟨[], .inTree [lit "output.txt"]⟩ sampleTree).status ∧
    (main ⟨[], .inTree [lit "output.txt"]⟩
        (main ⟨[], .inTree [lit "output.txt"]⟩ sampleTree).root).written =
      (main ⟨[], .inTree [lit "output.txt"]⟩ sampleTree).written :=
  rerun_same_output ⟨[], .inTree [lit "output.txt"]⟩ sampleTree (by
    intro o ho
    have : o = [lit "output.txt"] := by
      simp only [OutputLoc.inTree.injEq] at ho
      exact ho.symm
    subst this
    decide)

/-! ## The loop bounds are enough -/

theorem decodeRune_width (b : Nat) (rest : Str) : 1 ≤ (decodeRune (b :: rest)).2 := by
  simp only [decodeRune]
  repeat' split
  all_goals simp

theorem drop_decodeRune_lt (b : Nat) (rest : Str) :
    ((b :: rest).drop (decodeRune (b :: rest)).2).length < (b :: rest).length := by
  have := decodeRune_width b rest
  simp only [List.length_drop, List.length_cons]
  omega

/-- The bound of `allSpace`: any bound from the length of the string on gives the same
result. -/
theorem allSpace_fuel : ∀ (f1 f2 : Nat) (s : Str), s.length ≤ f1 → s.length ≤ f2 →
    allSpace f1 s = allSpace f2 s
  | 0, f2, s, h1, _ => by
    have : s = [] := List.length_eq_zero.mp (Nat.le_zero.mp h1)
    subst this
    cases f2 <;> rfl
  | f1 + 1, 0, s, _, h2 => by
    have : s = [] := List.length_eq_zero.mp (Nat.le_zero.mp h2)
    subst this
    rfl
  | f1 + 1, f2 + 1, [], _, _ => rfl
  | f1 + 1, f2 + 1, b :: rest, h1, h2 => by
    have hlt := drop_decodeRune_lt b rest
    simp only [List.length_cons] at h1 h2 hlt
    simp only [allSpace]
    rw [allSpace_fuel f1 f2 _ (by omega) (by omega)]

theorem getEsc_shorter (chunk : Str) (r : Nat) (rest : Str)
    (h : getEsc chunk = .ok (r, rest)) : rest.length < chunk.length := by
  cases chunk with
  | nil => simp [getEsc] at h
  | cons c tl =>
    by_cases hc : c = 92
    · subst hc
      simp only [getEsc, beq_self_eq_true, if_true] at h
      split_ifs at h
      simp only [Except.ok.injEq, Prod.mk.injEq] at h
      rw [← h.2]
      simp only [List.length_drop, List.length_cons]
      omega
    · have hb : (c == 92) = false := by simpa using hc
      simp only [getEsc, hb, Bool.false_eq_true, if_false] at h
      split_ifs at h
      simp only [Except.ok.injEq, Prod.mk.injEq] at h
      rw [← h.2]
      exact drop_decodeRune_lt c tl

theorem hasPrefix_singleton (s : Str) (c : Nat) (h : hasPrefix s [c] = true) :
    (s.drop 1).length < s.length := by
  cases s with
  | nil => simp [hasPrefix] at h
  | cons a t => simp

/-- The bound of `classLoop`: any bound above the length of the chunk gives the same
result. -/
theorem classLoop_fuel : ∀ (f1 f2 : Nat) (chunk : Str) (r : Nat) (m st : Bool),
    chunk.length < f1 → chunk.length < f2 →
    classLoop f1 chunk r m st = classLoop f2 chunk r m st
  | 0, _, _, _, _, _, h1, _ => by omega
  | _ + 1, 0, _, _, _, _, _, h2 => by omega
  | f1 + 1, f2 + 1, chunk, r, m, st, h1, h2 => by
    simp only [classLoop]
    by_cases hc : (st && hasPrefix chunk [93]) = true
    · simp only [hc, if_true]
    · simp only [hc, if_false]
      rcases hg : getEsc chunk with e | ⟨lo, chunk1⟩
      · rfl
      · have hs1 := getEsc_shorter chunk lo chunk1 hg
        simp only []
        by_cases hd : hasPrefix chunk1 [45] = true
        · simp only [hd, if_true]
          rcases hg2 : getEsc (chunk1.drop 1) with e | ⟨hi, chunk2⟩
          · rfl
          · have hs2 := getEsc_shorter _ hi chunk2 hg2
            simp only [List.length_drop] at hs2
            simp only []
            exact classLoop_fuel f1 f2 chunk2 r _ true (by omega) (by omega)
        · simp only [hd, if_false]
          exact classLoop_fuel f1 f2 chunk1 r _ true (by omega) (by omega)

theorem classLoop_shorter : ∀ (fuel : Nat) (chunk : Str) (r : Nat) (m st : Bool)
    (chunk2 : Str) (m2 : Bool), classLoop fuel chunk r m st = .ok (chunk2, m2) →
    chunk2.length < chunk.length
  | 0, _, _, _, _, _, _, h => by simp [classLoop] at h
  | fuel + 1, chunk, r, m, st, chunk2, m2, h => by
    simp only [classLoop] at h
    by_cases hc : (st && hasPrefix chunk [93]) = true
    · simp only [hc, if_true, Except.ok.injEq, Prod.mk.injEq] at h
      rw [← h.1]
      simp only [Bool.and_eq_true] at hc
      exact hasPrefix_singleton chunk 93 hc.2
    · simp only [hc, if_false] at h
      rcases hg : getEsc chunk with e | ⟨lo, chunk1⟩
      · rw [hg] at h; simp at h
      · have hs1 := getEsc_shorter chunk lo chunk1 hg
        rw [hg] at h
        simp only [] at h
        by_cases hd : hasPrefix chunk1 [45] = true
        · simp only [hd, if_true] at h
          rcases hg2 : getEsc (chunk1.drop 1) with e | ⟨hi, chunk3⟩
          · rw [hg2] at h; simp at h
          · have hs2 := getEsc_shorter _ hi chunk3 hg2
            simp only [List.length_drop] at hs2
            rw [hg2] at h
            simp only [] at h
            have := classLoop_shorter fuel chunk3 r _ true chunk2 m2 h
            omega
        · simp only [hd, if_false] at h
          have := classLoop_shorter fuel chunk1 r _ true chunk2 m2 h
          omega

theorem matchClass_shorter (chunk : Str) (r : Nat) (chunk2 : Str) (miss : Bool)
    (h : matchClass chunk r = .ok (chunk2, miss)) : chunk2.length < chunk.length + 1 := by
  simp only [matchClass] at h
  split at h
  · simp at h
  · rename_i c2 m2 hcl
    simp only [Except.ok.injEq, Prod.mk.injEq] at h
    have hs := classLoop_shorter _ _ _ _ _ c2 m2 hcl
    rw [← h.1]
    have hle : (if hasPrefix chunk [94] = true then List.drop 1 chunk else chunk).length ≤
        chunk.length := by
      split_ifs <;> simp
    omega

/-- The bound of `matchChunkLoop`: any bound from the length of the chunk on gives the
same result. -/
theorem matchChunkLoop_fuel : ∀ (f1 f2 : Nat) (chunk s : Str) (failed : Bool),
    chunk.length ≤ f1 → chunk.length ≤ f2 →
    matchChunkLoop f1 chunk s failed = matchChunkLoop f2 chunk s failed
  | f1, f2, [], s, failed, _, _ => by
    cases f1 <;> cases f2 <;> rfl
  | 0, _, _ :: _, _, _, h1, _ => by simp at h1
  | _ + 1, 0, _ :: _, _, _, _, h2 => by simp at h2
  | f1 + 1, f2 + 1, c :: chunk, s, failed, h1, h2 => by
    simp only [List.length_cons, Nat.add_le_add_iff_right] at h1 h2
    simp only [matchChunkLoop]
    by_cases hc1 : (c == 91) = true
    · rw [if_pos hc1, if_pos hc1]
      split
      · rfl
      · rename_i chunk2 miss hcl
        have hs := matchClass_shorter _ _ chunk2 miss hcl
        exact matchChunkLoop_fuel f1 f2 chunk2 _ _ (by omega) (by omega)
    · rw [if_neg hc1, if_neg hc1]
      by_cases hc2 : (c == 63) = true
      · rw [if_pos hc2, if_pos hc2]
        split_ifs
        · exact matchChunkLoop_fuel f1 f2 chunk _ _ h1 h2
        · exact matchChunkLoop_fuel f1 f2 chunk _ _ h1 h2
      · rw [if_neg hc2, if_neg hc2]
        by_cases hc3 : (c == 92) = true
        · rw [if_pos hc3, if_pos hc3]
          cases chunk with
          | nil => rfl
          | cons c1 chunk1 =>
            simp only [List.length_cons] at h1 h2
            simp only []
            split_ifs
            · exact matchChunkLoop_fuel f1 f2 chunk1 _ _ (by omega) (by omega)
            · exact matchChunkLoop_fuel f1 f2 chunk1 _ _ (by omega) (by omega)
        · rw [if_neg hc3, if_neg hc3]
          split_ifs
          · exact matchChunkLoop_fuel f1 f2 chunk _ _ h1 h2
          · exact matchChunkLoop_fuel f1 f2 chunk _ _ h1 h2

theorem scanEnd_pos (b : Nat) (rest : Str) (inrange : Bool) (hb : (b == 42) = false) :
    1 ≤ scanEnd (b :: rest) inrange := by
  rw [scanEnd.eq_def]
  simp only []
  by_cases h1 : (b == 92) = true
  · rw [if_pos h1]
    cases rest with
    | nil => exact Nat.le_refl 1
    | cons c r => simp only []; omega
  · rw [if_neg h1]
    by_cases h2 : (b == 91) = true
    · rw [if_pos h2]; omega
    · rw [if_neg h2]
      by_cases h3 : (b == 93) = true
      · rw [if_pos h3]; omega
      · rw [if_neg h3, if_neg (by simp [hb])]; omega

theorem dropWhile_star_length (p : Str) : (p.dropWhile (fun b => b == 42)).length ≤ p.length :=
  (List.dropWhile_sublist _).length_le

theorem dropWhile_star_head (p : Str) (c : Nat) (q : Str)
    (h : p.dropWhile (fun b => b == 42) = c :: q) : (c == 42) = false := by
  induction p with
  | nil => simp at h
  | cons a l ih =>
    rw [List.dropWhile_cons] at h
    by_cases ha : (a == 42) = true
    · rw [if_pos ha] at h
      exact ih h
    · rw [if_neg ha] at h
      simp only [List.cons.injEq] at h
      rw [← h.1]
      simpa using ha

/-- Every chunk takes at least one byte of a non-empty pattern. -/
theorem scanChunk_rest_lt (b : Nat) (p : Str) :
    (scanChunk (b :: p)).2.2.length < (b :: p).length := by
  simp only [scanChunk, List.length_drop]
  cases hd : (b :: p).dropWhile (fun b => b == 42) with
  | nil => simp
  | cons c q =>
    have hc := dropWhile_star_head (b :: p) c q hd
    have h1 := scanEnd_pos c q false hc
    have h2 := dropWhile_star_length (b :: p)
    rw [hd] at h2
    simp only [List.length_cons] at h2 ⊢
    omega

/-- An empty chunk is the last one. -/
theorem scanChunk_empty_chunk (p : Str) (h : (scanChunk p).2.1 = []) :
    (scanChunk p).2.2 = [] := by
  simp only [scanChunk] at h ⊢
  cases hd : p.dropWhile (fun b => b == 42) with
  | nil => simp
  | cons c q =>
    have hc := dropWhile_star_head p c q hd
    have h1 := scanEnd_pos c q false hc
    rw [hd] at h
    have : 0 < scanEnd (c :: q) false := h1
    obtain ⟨k, hk⟩ := Nat.exists_eq_succ_of_ne_zero (Nat.pos_iff_ne_zero.mp this)
    rw [hk] at h
    simp at h

/-- The bound of `matchLoop`: any bound from the length of the pattern on gives the same
result. -/
theorem matchLoop_fuel : ∀ (f1 f2 : Nat) (pattern name : Str), pattern.length ≤ f1 →
    pattern.length ≤ f2 → matchLoop f1 pattern name = matchLoop f2 pattern name
  | f1, f2, [], _, _, _ => by cases f1 <;> cases f2 <;> rfl
  | 0, _, _ :: _, _, h1, _ => by simp at h1
  | _ + 1, 0, _ :: _, _, _, h2 => by simp at h2
  | f1 + 1, f2 + 1, b :: p, name, h1, h2 => by
    have hlt := scanChunk_rest_lt b p
    simp only [List.length_cons] at h1 h2 hlt
    have hm : ∀ t, matchLoop f1 (scanChunk (b :: p)).2.2 t =
        matchLoop f2 (scanChunk (b :: p)).2.2 t :=
      fun t => matchLoop_fuel f1 f2 _ t (by omega) (by omega)
    simp only [matchLoop, hm]

/-- The value of `filepath.Match` does not depend on the bound of the loop. -/
theorem Match_fuel (fuel : Nat) (pattern name : Str) (h : pattern.length ≤ fuel) :
    matchLoop fuel pattern name = Match pattern name :=
  matchLoop_fuel fuel pattern.length pattern name h (Nat.le_refl _)

/-! ## A malformed chunk is malformed whatever it is matched against -/

theorem classLoop_rest : ∀ (fuel : Nat) (chunk : Str) (r r1 : Nat) (m m1 st : Bool),
    (classLoop fuel chunk r m st).map Prod.fst = (classLoop fuel chunk r1 m1 st).map Prod.fst
  | 0, _, _, _, _, _, _ => rfl
  | fuel + 1, chunk, r, r1, m, m1, st => by
    simp only [classLoop]
    by_cases hc : (st && hasPrefix chunk [93]) = true
    · rw [if_pos hc, if_pos hc]
      rfl
    · rw [if_neg hc, if_neg hc]
      rcases hg : getEsc chunk with e | ⟨lo, chunk1⟩
      · rfl
      · simp only []
        by_cases hd : hasPrefix chunk1 [45] = true
        · rw [if_pos hd, if_pos hd]
          rcases hg2 : getEsc (chunk1.drop 1) with e | ⟨hi, chunk2⟩
          · rfl
          · exact classLoop_rest fuel chunk2 r r1 _ _ true
        · rw [if_neg hd, if_neg hd]
          exact classLoop_rest fuel chunk1 r r1 _ _ true

theorem matchClass_rest (chunk : Str) (r r1 : Nat) :
    (matchClass chunk r).map Prod.fst = (matchClass chunk r1).map Prod.fst := by
  have h := classLoop_rest
    ((if hasPrefix chunk [94] = true then List.drop 1 chunk else chunk).length + 1)
    (if hasPrefix chunk [94] = true then List.drop 1 chunk else chunk) r r1 false false false
  simp only [matchClass]
  rcases h1 : classLoop _ _ r false false with e | ⟨c2, m2⟩ <;>
    rcases h2 : classLoop _ _ r1 false false with e1 | ⟨c3, m3⟩ <;>
    rw [h1, h2] at h <;> simp only [Except.map] at h ⊢ <;> simp_all

theorem matchChunkLoop_error : ∀ (fuel : Nat) (chunk s s1 : Str) (failed failed1 : Bool)
    (e : PatternError), matchChunkLoop fuel chunk s failed = .error e →
    matchChunkLoop fuel chunk s1 failed1 = .error e
  | _, [], _, _, _, _, _, h => by
    rw [matchChunkLoop] at h
    simp at h
  | 0, _ :: _, _, _, _, _, .ErrBadPattern, _ => rfl
  | fuel + 1, c :: chunk, s, s1, failed, failed1, e, h => by
    simp only [matchChunkLoop] at h ⊢
    by_cases hc1 : (c == 91) = true
    · rw [if_pos hc1] at h ⊢
      generalize (if (failed || s.isEmpty) = true then (0, 0) else decodeRune s) = rn at h
      generalize (if (failed1 || s1.isEmpty) = true then (0, 0) else decodeRune s1) = rn1
      have hr := matchClass_rest chunk rn.1 rn1.1
      rcases h1 : matchClass chunk rn.1 with e1 | ⟨c2, m2⟩
      · rcases h2 : matchClass chunk rn1.1 with e2 | ⟨c3, m3⟩
        · cases e; cases e2; rfl
        · exact absurd hr (by rw [h1, h2]; simp [Except.map])
      · rw [h1] at h
        simp only [] at h
        rcases h2 : matchClass chunk rn1.1 with e2 | ⟨c3, m3⟩
        · exact absurd hr (by rw [h1, h2]; simp [Except.map])
        · rw [h1, h2] at hr
          simp only [Except.map, Except.ok.injEq] at hr
          subst hr
          simp only []
          exact matchChunkLoop_error fuel c2 _ _ _ _ e h
    · rw [if_neg hc1] at h ⊢
      by_cases hc2 : (c == 63) = true
      · rw [if_pos hc2] at h ⊢
        split_ifs at h ⊢ <;> exact matchChunkLoop_error fuel chunk _ _ _ _ e h
      · rw [if_neg hc2] at h ⊢
        by_cases hc3 : (c == 92) = true
        · rw [if_pos hc3] at h ⊢
          cases chunk with
          | nil => exact h
          | cons c1 chunk1 =>
            simp only [] at h ⊢
            split_ifs at h ⊢ <;> exact matchChunkLoop_error fuel chunk1 _ _ _ _ e h
        · rw [if_neg hc3] at h ⊢
          split_ifs at h ⊢ <;> exact matchChunkLoop_error fuel chunk _ _ _ _ e h

theorem matchChunk_error (chunk s s1 : Str) (e : PatternError)
    (h : matchChunk chunk s = .error e) : matchChunk chunk s1 = .error e :=
  matchChunkLoop_error chunk.length chunk s s1 false false e h

theorem starLoop_ok (chunk : Str) (last : Bool)
    (hok : ∀ s e, matchChunk chunk s ≠ .error e) :
    ∀ name : Str, ∃ r, starLoop chunk last name = .ok r
  | [] => ⟨none, rfl⟩
  | b :: rest => by
    simp only [starLoop]
    split_ifs
    · exact ⟨none, rfl⟩
    · rcases hm : matchChunk chunk rest with e | _ | t
      · exact absurd hm (hok rest e)
      · exact starLoop_ok chunk last hok rest
      · simp only []
        split_ifs
        · exact starLoop_ok chunk last hok rest
        · exact ⟨some t, rfl⟩

theorem scanStep_rest_lt (data line rest : Str) (h : scanStep data = .token line rest) :
    rest.length < data.length := by
  cases data with
  | nil => simp [scanStep] at h
  | cons b tl =>
    simp only [scanStep, List.isEmpty_cons, Bool.false_eq_true, if_false] at h
    split_ifs at h
    simp only [ScanStep.token.injEq] at h
    rw [← h.2]
    exact drop_takeWhile_length_lt b tl

/-- The bound of `readLoop`: any bound from the length of the content on gives the same
result. -/
theorem readLoop_fuel : ∀ (f1 f2 : Nat) (data : Str) (acc : List Str),
    data.length ≤ f1 → data.length ≤ f2 → readLoop f1 data acc = readLoop f2 data acc
  | 0, f2, data, acc, h1, _ => by
    have : data = [] := List.length_eq_zero.mp (Nat.le_zero.mp h1)
    subst this
    cases f2 <;> rfl
  | f1 + 1, 0, data, acc, _, h2 => by
    have : data = [] := List.length_eq_zero.mp (Nat.le_zero.mp h2)
    subst this
    rfl
  | f1 + 1, f2 + 1, data, acc, h1, h2 => by
    simp only [readLoop]
    rcases hs : scanStep data with ⟨line, rest⟩ | _ | _
    · have hlt := scanStep_rest_lt data line rest hs
      simp only []
      split_ifs
      · exact readLoop_fuel f1 f2 rest _ (by omega) (by omega)
      · exact readLoop_fuel f1 f2 rest _ (by omega) (by omega)
    · rfl
    · rfl

/-- The output file must not be the ignore file either: with `.gitignore` of the target
directory as output file the first run on `notesTree` writes the record of `a.md`
there, the second run reads it as the list of patterns, excludes `a.md` and writes
an empty file. -/
theorem rerun_ignore_file_differs :
    (main ⟨[], .inTree [lit ".gitignore"]⟩ notesTree).written = some (lit "a.md\nx\n\n") ∧
    (main ⟨[], .inTree [lit ".gitignore"]⟩
      (main ⟨[], .inTree [lit ".gitignore"]⟩ notesTree).root).written = some [] := by
  decide

/-! ## A pattern with a malformed chunk never matches -/

theorem matchLoop_error_bad : ∀ (fuel : Nat) (pattern name : Str) (e : PatternError),
    matchLoop fuel pattern name = .error e → hasBadChunk fuel pattern = true
  | fuel, [], name, e, h => by
    cases fuel <;> simp [matchLoop] at h
  | 0, _ :: _, _, _, h => by simp [matchLoop] at h
  | fuel + 1, b :: p, name, e, h => by
    have ih : ∀ t, matchLoop fuel (scanChunk (b :: p)).2.2 t = .error e →
        hasBadChunk fuel (scanChunk (b :: p)).2.2 = true :=
      fun t => matchLoop_error_bad fuel _ t e
    simp only [matchLoop] at h
    simp only [hasBadChunk]
    rcases hsc : scanChunk (b :: p) with ⟨star, chunk, rest⟩
    rw [hsc] at ih h
    simp only at ih h ⊢
    rcases hm0 : matchChunk chunk [] with e0 | r0
    · rfl
    · have hok : ∀ s e1, matchChunk chunk s ≠ .error e1 := by
        intro s e1 hs
        have := matchChunk_error chunk s [] e1 hs
        rw [hm0] at this
        simp at this
      simp only []
      have hstar : (match starLoop chunk rest.isEmpty name with
          | Except.error e => Except.error e
          | Except.ok (some t1) => matchLoop fuel rest t1
          | Except.ok none => Except.ok false) = Except.error e →
          hasBadChunk fuel rest = true := by
        obtain ⟨r, hr⟩ := starLoop_ok chunk rest.isEmpty hok name
        rw [hr]
        cases r with
        | none => intro h1; simp at h1
        | some t1 => exact ih t1
      by_cases hse : (star && chunk.isEmpty) = true
      · rw [if_pos hse] at h
        simp at h
      · rw [if_neg hse] at h
        rcases hm : matchChunk chunk name with e1 | _ | t
        · exact absurd hm (hok name e1)
        · rw [hm] at h
          simp only [] at h
          split_ifs at h
          · exact hstar h
        · rw [hm] at h
          simp only [] at h
          split_ifs at h
          · exact ih t h
          · exact hstar h

theorem matchLoop_bad_no_match : ∀ (fuel : Nat) (pattern name : Str),
    hasBadChunk fuel pattern = true → matchLoop fuel pattern name ≠ .ok true
  | fuel, [], name, h => by
    cases fuel <;> simp [hasBadChunk] at h
  | 0, _ :: _, _, h => by simp [hasBadChunk] at h
  | fuel + 1, b :: p, name, h => by
    have ih : ∀ t, hasBadChunk fuel (scanChunk (b :: p)).2.2 = true →
        matchLoop fuel (scanChunk (b :: p)).2.2 t ≠ .ok true :=
      fun t => matchLoop_bad_no_match fuel _ t
    have hempty := scanChunk_empty_chunk (b :: p)
    simp only [hasBadChunk] at h
    simp only [matchLoop]
    rcases hsc : scanChunk (b :: p) with ⟨star, chunk, rest⟩
    rw [hsc] at ih h hempty
    simp only at ih h hempty ⊢
    rcases hm0 : matchChunk chunk [] with e0 | r0
    · by_cases hse : (star && chunk.isEmpty) = true
      · simp only [Bool.and_eq_true, List.isEmpty_iff] at hse
        rw [hse.2] at hm0
        simp [matchChunk, matchChunkLoop] at hm0
      · rw [if_neg hse]
        rw [matchChunk_error chunk [] name e0 hm0]
        simp
    · rw [hm0] at h
      simp only [] at h
      have hstar : (match starLoop chunk rest.isEmpty name with
          | Except.error e => Except.error e
          | Except.ok (some t1) => matchLoop fuel rest t1
          | Except.ok none => Except.ok false) ≠ Except.ok true := by
        rcases starLoop chunk rest.isEmpty name with e1 | _ | t1
        · simp
        · simp
        · exact ih t1 h
      by_cases hse : (star && chunk.isEmpty) = true
      · simp only [Bool.and_eq_true, List.isEmpty_iff] at hse
        rw [hempty hse.2] at h
        cases fuel <;> simp [hasBadChunk] at h
      · rw [if_neg hse]
        rcases hm : matchChunk chunk name with e1 | _ | t
        · simp
        · simp only []
          split_ifs
          · exact hstar
          · simp
        · simp only []
          split_ifs
          · exact ih t h
          · exact hstar
          · simp

/-- A pattern for which `filepath.Match` returns `ErrBadPattern` on some name matches no
name. -/
theorem Match_error_no_match (pattern name path : Str) (e : PatternError)
    (h : Match pattern name = .error e) : globMatched pattern path = false := by
  have hbad := matchLoop_error_bad pattern.length pattern name e h
  have hno := matchLoop_bad_no_match pattern.length pattern path hbad
  unfold globMatched Match
  rcases hm : matchLoop pattern.length pattern path with e1 | m
  · rfl
  · cases m with
    | false => rfl
    | true => exact absurd hm hno

/-! ## C7: malformed patterns -/

/-- C7, as stated, fails: the pattern `[/` is malformed (`filepath.Match` returns
`ErrBadPattern` for it), yet `matchesGitignore` returns true on the path `[x`,
because the pattern ends in `/` and the path begins with `[`. -/
theorem malformed_pattern_claim_fails :
    Match (lit "[/") (lit "[x") = .error .ErrBadPattern ∧
    matchesGitignore (lit "[x") [lit "[/"] = true := by
  decide

/-- C7, amended: for a malformed pattern `p` (one for which `filepath.Match` returns
`ErrBadPattern` on some name) and every path, the glob test of `p` counts as a
non-match, whether `filepath.Match` reports the error on that path or not, and
nothing aborts: `matchesGitignore(path, [p])` is true exactly when the prefix rule
applies (`p` ends in `/` and the path begins with `p` without that `/`), and in a
longer list `p` adds nothing but this prefix rule. -/
theorem malformed_pattern_prefix_only (p name path : Str) (e : PatternError)
    (h : Match p name = .error e) :
    globMatched p path = false ∧
    matchesGitignore path [p] = prefixRule p path ∧
    ∀ pre post : List Str, matchesGitignore path (pre ++ p :: post) =
      (matchesGitignore path (pre ++ post) || prefixRule p path) := by
  have hg : globMatched p path = false := Match_error_no_match p name path e h
  refine ⟨hg, ?_, ?_⟩
  · simp [matchesGitignore_eq_any, hg]
  · intro pre post
    simp only [matchesGitignore_eq_any, List.any_append, List.any_cons, hg, Bool.false_or]
    cases List.any pre _ <;> cases List.any post _ <;> cases prefixRule p path <;> rfl

/-- Witness for `malformed_pattern_prefix_only`: the pattern `b*[` is malformed on the
name `bx`; on the path `a` `filepath.Match` returns false without an error, and
`matchesGitignore` is false. -/
theorem malformed_pattern_prefix_only_witness :
    Match (lit "b*[") (lit "bx") = .error .ErrBadPattern ∧
    Match (lit "b*[") (lit "a") = .ok false ∧
    globMatched (lit "b*[") (lit "a") = false ∧
    matchesGitignore (lit "a") [lit "b*["] = false :=
  have h := malformed_pattern_prefix_only (lit "b*[") (lit "bx") (lit "a") .ErrBadPattern
    (by decide)
  ⟨by decide, by decide, h.1, h.2.1.trans (by decide)⟩

theorem patternsOf_cons (line : Str) (lines : List Str) :
    patternsOf (line :: lines) =
      (if !trimsToEmpty (dropCR line) && !hasPrefix (dropCR line) [35]
        then [dropCR line] else []) ++ patternsOf lines := by
  simp only [patternsOf, List.map_cons, List.filter_cons]
  split_ifs <;> simp

theorem linesBeforeLong_all (lines : List Str)
    (h : ∀ l ∈ lines, l.length < maxScanTokenSize) : linesBeforeLong lines = lines := by
  unfold linesBeforeLong
  rw [List.takeWhile_eq_self_iff]
  intro l hl
  simpa using h l hl

theorem linesBeforeLong_cons (line : Str) (lines : List Str) :
    linesBeforeLong (line :: lines) =
      if line.length < maxScanTokenSize then line :: linesBeforeLong lines else [] := by
  simp only [linesBeforeLong, List.takeWhile_cons, decide_eq_true_eq]

/-- The scan loop returns the patterns of the lines that come before the first line that
does not fit the buffer. -/
theorem readLoop_stops : ∀ (fuel : Nat) (data : Str) (acc : List Str),
    data.length ≤ fuel →
    readLoop fuel data acc = acc ++ patternsOf (linesBeforeLong (rawLines data))
  | 0, data, acc, hlen => by
    have : data = [] := List.length_eq_zero.mp (Nat.le_zero.mp hlen)
    subst this
    simp [readLoop, patternsOf, linesBeforeLong, rawLines]
  | fuel + 1, [], acc, _ => by
    simp [readLoop, scanStep, patternsOf, linesBeforeLong, rawLines]
  | fuel + 1, b :: rest, acc, hlen => by
    have hraw := rawLines_eq b rest
    have hlt := drop_takeWhile_length_lt b rest
    have hfuel : ((b :: rest).drop
        (((b :: rest).takeWhile (fun x => x != 10)).length + 1)).length ≤ fuel := by
      simp only [List.length_cons] at hlt hlen
      omega
    rw [hraw]
    by_cases hl : ((b :: rest).takeWhile (fun x => x != 10)).length < maxScanTokenSize
    · have hstep : scanStep (b :: rest) =
          .token (dropCR ((b :: rest).takeWhile (fun x => x != 10)))
            ((b :: rest).drop (((b :: rest).takeWhile (fun x => x != 10)).length + 1)) := by
        simp only [scanStep, List.isEmpty_cons, Bool.false_eq_true, if_false]
        rw [if_neg (Nat.not_le.mpr hl)]
      rw [readLoop, hstep, linesBeforeLong_cons, if_pos hl, patternsOf_cons]
      simp only []
      split_ifs with hk
      · rw [readLoop_stops fuel _ _ hfuel]; simp
      · rw [readLoop_stops fuel _ _ hfuel]; simp
    · have hstep : scanStep (b :: rest) = .tooLong := by
        simp only [scanStep, List.isEmpty_cons, Bool.false_eq_true, if_false]
        rw [if_pos (Nat.not_lt.mp hl)]
      rw [readLoop, hstep, linesBeforeLong_cons, if_neg hl]
      simp [patternsOf]

/-- C6, amended: for every content of the ignore file, `readGitignore` returns exactly
the lines that come before the first line of 65536 bytes or more (a line that long
stops the scan), in file order and without the carriage return of the line end, that
are not empty after trimming white space and do not begin with `#`; when each line
has fewer than 65536 bytes these are all such lines of the file. -/
theorem readGitignore_lines (content : Str) :
    readGitignore (some content) = patternsOf (linesBeforeLong (rawLines content)) ∧
    ((∀ l ∈ rawLines content, l.length < maxScanTokenSize) →
      readGitignore (some content) = claimedPatterns content) := by
  have h : readGitignore (some content) =
      patternsOf (linesBeforeLong (rawLines content)) := by
    rw [readGitignore, readLoop_stops content.length content [] (Nat.le_refl _)]
    rfl
  refine ⟨h, ?_⟩
  intro hshort
  rw [h, linesBeforeLong_all _ hshort]
  rfl

/-- Witness for `readGitignore_lines`: an ignore file with a comment, blank lines, a line
ending in carriage return and newline, and a last line without newline. -/
theorem readGitignore_lines_witness :
    readGitignore (some (lit "# build\n\nbuild/\r\n  \n*.o")) = [lit "build/", lit "*.o"] :=
  ((readGitignore_lines (lit "# build\n\nbuild/\r\n  \n*.o")).2 (by decide)).trans (by decide)

/-- The scan stops at a long line in the middle of the file: of the lines `x`, a line of
65536 bytes `a` and `b`, only `x` is returned. -/
theorem long_line_in_the_middle :
    readGitignore (some (lit "x\n" ++ longLineContent)) = [lit "x"] := by
  have hnl : ∀ x ∈ List.replicate 65536 97, x ≠ 10 := by
    intro x hx
    rw [List.eq_of_mem_replicate hx]
    decide
  have hx : ∀ x ∈ lit "x", x ≠ 10 := by decide
  have hraw : rawLines (lit "x\n" ++ longLineContent) =
      lit "x" :: List.replicate 65536 97 :: rawLines [98] := by
    have e1 : lit "x\n" ++ longLineContent = lit "x" ++ 10 :: longLineContent := by
      have : lit "x\n" = lit "x" ++ [10] := by decide
      rw [this]; simp
    rw [e1, rawLines_line _ _ hx, longLineContent, rawLines_line _ _ hnl]
  rw [(readGitignore_lines _).1, hraw]
  have hb : linesBeforeLong (lit "x" :: List.replicate 65536 97 :: rawLines [98]) =
      [lit "x"] := by
    have h1 : (lit "x").length < maxScanTokenSize := by decide
    have h2 : ¬ (List.replicate 65536 97).length < maxScanTokenSize := by
      rw [List.length_replicate]; decide
    rw [linesBeforeLong_cons, if_pos h1, linesBeforeLong_cons, if_neg h2]
  rw [hb]
  decide

end GoExtractor
